import Mathlib

/-!
# RxnBase: from reaction equations to the coefficient matrix

A shallow embedding of `core/CoreBase/RxnBase.hpp`.

* `std::string` is `String`, read through its list of characters.
* `std::vector<T>` is `List T`; `push_back` appends at the end.
* A `float` is the rational number it holds (`ℚ`).  Of the `float` operations of
  `RxnBase.hpp` the product by the sign `±1` and the stores are exact; the one that rounds, the
  sum `row(i).sum()` that Eigen takes over binary32 coefficients, is the collaborator
  `Deps.sum`.
* `ChemBase*` handles are values of an arbitrary type `H` with decidable equality
  (pointer identity).
* C++ exceptions are `Except Exception`.  An index outside a vector or outside the matrix
  (undefined behaviour in C++) is made observable as `Exception.out_of_bounds`.
* The collaborators that are not part of `RxnBase.hpp` (the regular-expression iterator with
  its pattern `pat_big`, `std::stof`, `ChemBase::getChemPtr`, the sum of Eigen) are the fields
  of `Deps`; each is read as a function of its argument, so the same name always resolves to
  the same handle.
  The general theorems hold for every choice of them; `model` gives one choice, with which
  the worked examples are evaluated.
-/

set_option linter.unusedSectionVars false

namespace chemprochelper

/-! ## Exceptions and collaborators -/

/-- The exceptions that can leave a `RxnBase` constructor. -/
inductive Exception where
  /-- `std::runtime_error(what)`, thrown by `_setMat` itself. -/
  | runtime_error (what : String)
  /-- `std::invalid_argument`, thrown by `std::stof` when no conversion can be performed. -/
  | invalid_argument
  /-- `std::out_of_range`, thrown by `std::stof` when the value does not fit. -/
  | out_of_range
  /-- An index outside a vector or outside the matrix. -/
  | out_of_bounds
  deriving DecidableEq

/-- The collaborators of `RxnBase`, whose code is outside `RxnBase.hpp`. -/
structure Deps (H : Type) where
  /-- The matches of `functions::_RegexIter(term, const_variables::pat_big)`, in order, each
  given as the pair `(m[1], m[2])` of its two capture groups. -/
  regexIter : String → List (String × String)
  /-- The value `std::stof` returns for a text, or the exception it throws. -/
  stof : String → Except Exception ℚ
  /-- The handle `ChemBase::getChemPtr` returns for a name, or the exception it throws. -/
  getChemPtr : String → Except Exception H
  /-- The value Eigen's `sum()` returns for the binary32 coefficients of a row, given from
  the first column to the last. -/
  sum : List ℚ → ℚ

namespace functions

/-- Modelled from the spec: `functions::inVector` is not among the sources; the spec reads
`!inVector(_ChemIdx, chemIdx)` as "the handle is new to this ReactionSet". -/
def inVector {α : Type} [DecidableEq α] (vec : List α) (x : α) : Bool :=
  decide (x ∈ vec)

/-- Modelled from the spec: `functions::getVecPos` is not among the sources; the spec reads
it as "position of handle in the unique-species list".  For an absent element the model
returns the length of the vector, an index outside it. -/
def getVecPos {α : Type} [DecidableEq α] (vec : List α) (x : α) : Nat :=
  vec.indexOf x

end functions

/-! ## Strings -/

namespace std

/-- The position of the first occurrence of `c` in a list of characters. -/
def findChar (c : Char) : List Char → Option Nat
  | [] => none
  | x :: xs => if x = c then some 0 else (findChar c xs).map (· + 1)

/-- The call `s.find("=")` of `std::string`, with `npos` as `none`. -/
def find (s : String) (c : Char) : Option Nat :=
  findChar c s.data

/-- The call `s.substr(pos, len)` of `std::string`, for `pos` inside the string. -/
def substr (s : String) (pos len : Nat) : String :=
  String.mk ((s.data.drop pos).take len)

/-- The call `s.substr(pos)` of `std::string`, for `pos` inside the string. -/
def substrFrom (s : String) (pos : Nat) : String :=
  String.mk (s.data.drop pos)

end std

/-! ## The matrix -/

/-- An `Eigen::MatrixXf`: its two dimensions and its coefficients, every coefficient being
the rational number the `float` holds. -/
structure MatrixXf where
  rows : Nat
  cols : Nat
  coeff : Nat → Nat → ℚ

namespace MatrixXf

/-- The matrix after `resize(rows, cols)` and `setZero()`. -/
def zero (rows cols : Nat) : MatrixXf :=
  { rows := rows, cols := cols, coeff := fun _ _ => 0 }

/-- The assignment `M(i, j) = v`. -/
def set (M : MatrixXf) (i j : Nat) (v : ℚ) : Except Exception MatrixXf :=
  if i < M.rows ∧ j < M.cols then
    .ok { M with coeff := fun a b => if a = i ∧ b = j then v else M.coeff a b }
  else
    .error Exception.out_of_bounds

/-- The value `M.row(i).sum()`: the sum Eigen takes, with `sum`, over the coefficients of
row `i` in all columns. -/
def rowSum (sum : List ℚ → ℚ) (M : MatrixXf) (i : Nat) : ℚ :=
  sum ((List.range M.cols).map (M.coeff i))

/-- Column `j` of the matrix, from the first row to the last. -/
def col (M : MatrixXf) (j : Nat) : List ℚ :=
  (List.range M.rows).map (fun i => M.coeff i j)

end MatrixXf

/-! ## RxnBase -/

/-- The member variables of `RxnBase`, with their default member initialisers. -/
structure RxnBase (H : Type) where
  _Comment : String := ""
  _ChemIdx : List H := []
  _EffiMat : MatrixXf := MatrixXf.zero 0 0

namespace RxnBase

variable {H : Type} [DecidableEq H]

/-- The references `effiVec` and `chemVec` that `_parseTerm` appends to, together with the
object whose `_ChemIdx` it extends. -/
structure TermOut (H : Type) where
  effiVec : List ℚ
  chemVec : List H
  self : RxnBase H

/-- One pass through the body of the loop of `_parseTerm`, for the match `m`. -/
def parseStep (d : Deps H) (sgn : Int) (st : TermOut H) (m : String × String) :
    Except Exception (TermOut H) := do
  let effi ← if m.1 = "" then pure (sgn : ℚ) else (d.stof m.1).map (fun v => (sgn : ℚ) * v)
  let chemIdx ← d.getChemPtr m.2
  let self :=
    if functions.inVector st.self._ChemIdx chemIdx then st.self
    else { st.self with _ChemIdx := st.self._ChemIdx ++ [chemIdx] }
  pure { effiVec := st.effiVec ++ [effi], chemVec := st.chemVec ++ [chemIdx], self := self }

/-- The method `_parseTerm(term, direction, effiVec, chemVec)`. -/
def _parseTerm (d : Deps H) (term : String) (direction : Bool) (st : TermOut H) :
    Except Exception (TermOut H) :=
  let sgn : Int := if direction then -1 else 1
  (d.regexIter term).foldlM (parseStep d sgn) st

/-- The local variables of `_setMat` that live across its first loop, and the object. -/
structure Locals (H : Type) where
  effiVec : List (List ℚ)
  chemVec : List (List H)
  curEqnIdx : Nat
  self : RxnBase H

/-- One pass through the body of the first loop of `_setMat`, for the equation `eqn`.  The
two vectors pushed for the equation are filled by the two calls of `_parseTerm` and are the
last elements of `effiVec` and `chemVec`. -/
def eqnStep (d : Deps H) (st : Locals H) (eqn : String) : Except Exception (Locals H) :=
  match std.find eqn '=' with
  | none => .error (Exception.runtime_error "Invalid chemical reaction has entered.")
  | some strIdx => do
    let reac := std.substr eqn 0 strIdx
    let prod := std.substrFrom eqn (strIdx + 1)
    let t0 : TermOut H := { effiVec := [], chemVec := [], self := st.self }
    let t1 ← _parseTerm d reac true t0
    let t2 ← _parseTerm d prod false t1
    pure { effiVec := st.effiVec ++ [t2.effiVec], chemVec := st.chemVec ++ [t2.chemVec],
           curEqnIdx := st.curEqnIdx + 1, self := t2.self }

/-- The first loop of `_setMat`: every equation is split and both of its sides are parsed. -/
def parseEqns (d : Deps H) (eqnVec : List String) (self : RxnBase H) :
    Except Exception (Locals H) :=
  eqnVec.foldlM (eqnStep d) { effiVec := [], chemVec := [], curEqnIdx := 0, self := self }

/-- One pass through the body of the inner loop of the second loop of `_setMat`. -/
def cellStep (chemIdx : List H) (j : Nat) (curEffiVec : List ℚ) (curChemVec : List H)
    (M : MatrixXf) (idx : Nat) : Except Exception MatrixXf :=
  match curChemVec[idx]?, curEffiVec[idx]? with
  | some h, some v => M.set (functions.getVecPos chemIdx h) j v
  | _, _ => .error Exception.out_of_bounds

/-- One pass through the body of the second loop of `_setMat`, for the column `j`. -/
def colStep (st : Locals H) (M : MatrixXf) (j : Nat) : Except Exception MatrixXf :=
  match st.effiVec[j]?, st.chemVec[j]? with
  | some curEffiVec, some curChemVec =>
    (List.range curChemVec.length).foldlM (cellStep st.self._ChemIdx j curEffiVec curChemVec) M
  | _, _ => .error Exception.out_of_bounds

/-- One pass through the body of the third loop of `_setMat`, for the row `i`. -/
def sumStep (d : Deps H) (curEqnIdx : Nat) (M : MatrixXf) (i : Nat) :
    Except Exception MatrixXf :=
  M.set i curEqnIdx (M.rowSum d.sum i)

/-- The part of `_setMat` after its first loop: the matrix is sized, zeroed and filled. -/
def fillMat (d : Deps H) (st : Locals H) : Except Exception (RxnBase H) := do
  let M0 := MatrixXf.zero st.self._ChemIdx.length (st.curEqnIdx + 1)
  let M1 ← (List.range st.curEqnIdx).foldlM (colStep st) M0
  let M2 ← (List.range M1.rows).foldlM (sumStep d st.curEqnIdx) M1
  pure { st.self with _EffiMat := M2 }

/-- The method `_setMat(eqnVec)`. -/
def _setMat (d : Deps H) (eqnVec : List String) (self : RxnBase H) :
    Except Exception (RxnBase H) := do
  let st ← parseEqns d eqnVec self
  fillMat d st

/-- The default constructor `RxnBase()`. -/
def mk0 : RxnBase H := {}

/-- The constructor `RxnBase(eqn)`. -/
def ofEqn (d : Deps H) (eqn : String) : Except Exception (RxnBase H) :=
  _setMat d [eqn] {}

/-- The constructor `RxnBase(eqn, Comment)`. -/
def ofEqnComment (d : Deps H) (eqn : String) (Comment : String) :
    Except Exception (RxnBase H) :=
  _setMat d [eqn] { _Comment := Comment }

/-- The constructor `RxnBase(eqnVec)`. -/
def ofEqnVec (d : Deps H) (eqnVec : List String) : Except Exception (RxnBase H) :=
  _setMat d eqnVec {}

/-- The constructor `RxnBase(eqnVec, Comment)`. -/
def ofEqnVecComment (d : Deps H) (eqnVec : List String) (Comment : String) :
    Except Exception (RxnBase H) :=
  _setMat d eqnVec { _Comment := Comment }

/-- The getter `getComment()`. -/
def getComment (self : RxnBase H) : String := self._Comment

/-- The getter `getChemIdx()`. -/
def getChemIdx (self : RxnBase H) : List H := self._ChemIdx

/-- The getter `getEffiMat()`. -/
def getEffiMat (self : RxnBase H) : MatrixXf := self._EffiMat

end RxnBase

/-! ## Concrete collaborators for the worked examples -/

namespace model

/-- The characters `std::isspace` accepts in the C locale. -/
def isSpace (c : Char) : Bool :=
  c = ' ' || c = '\t' || c = '\n' || c = '\r' || c.toNat = 11 || c.toNat = 12

/-- The power `2 ^ k` for an integer exponent. -/
def pow2 (k : Int) : ℚ :=
  if 0 ≤ k then (2 : ℚ) ^ k.toNat else 1 / (2 : ℚ) ^ (-k).toNat

/-- The number of halvings that bring `n` below `2`, with `fuel` halvings at most. -/
def halvings : Nat → Nat → Nat
  | 0, _ => 0
  | fuel + 1, n => if n < 2 then 0 else halvings fuel (n / 2) + 1

/-- The exponent `e` with `2 ^ e ≤ n < 2 ^ (e + 1)`, for a positive natural number `n`. -/
def nlog2 (n : Nat) : Nat :=
  halvings n n

/-- The exponent `e` with `2 ^ e ≤ x < 2 ^ (e + 1)`, for a positive `x`. -/
def ilog2 (x : ℚ) : Int :=
  let e0 : Int := (nlog2 x.num.toNat : Int) - (nlog2 x.den : Int)
  if pow2 e0 ≤ x then e0 else e0 - 1

/-- The integer nearest to a non-negative `x`, the even one of the two when `x` lies half
way between them. -/
def roundHalfEven (x : ℚ) : Int :=
  let f : Int := x.num / (x.den : Int)
  let rest : ℚ := x - (f : ℚ)
  if rest < 1 / 2 then f
  else if 1 / 2 < rest then f + 1
  else if f % 2 = 0 then f else f + 1

/-- The binary32 number nearest to `x` (24 significant bits, exponents from `-126` up, ties to
the even significand).  The exponent is not bounded above: where binary32 overflows to an
infinity, which is no number, the model goes on with the rounded value. -/
def round32 (x : ℚ) : ℚ :=
  if x = 0 then 0
  else
    let a : ℚ := if x < 0 then -x else x
    let e : Int := max (ilog2 a) (-126)
    let q : ℚ := pow2 (e - 23)
    let r : ℚ := (roundHalfEven (a / q) : ℚ) * q
    if x < 0 then -r else r

/-- Reads a run of decimal digits: the number read so far, how many digits were read, and
the characters left. -/
def readDigits : List Char → Nat → Nat → Nat × Nat × List Char
  | [], acc, n => (acc, n, [])
  | c :: cs, acc, n =>
    if c.isDigit then readDigits cs (10 * acc + (c.toNat - '0'.toNat)) (n + 1)
    else (acc, n, c :: cs)

/-- The value of a hexadecimal digit. -/
def hexVal (c : Char) : Option Nat :=
  if c.isDigit then some (c.toNat - '0'.toNat)
  else if 'a'.toNat ≤ c.toNat ∧ c.toNat ≤ 'f'.toNat then some (c.toNat - 'a'.toNat + 10)
  else if 'A'.toNat ≤ c.toNat ∧ c.toNat ≤ 'F'.toNat then some (c.toNat - 'A'.toNat + 10)
  else none

/-- Reads a run of hexadecimal digits: the number read so far, how many digits were read, and
the characters left. -/
def readHexDigits : List Char → Nat → Nat → Nat × Nat × List Char
  | [], acc, n => (acc, n, [])
  | c :: cs, acc, n =>
    match hexVal c with
    | some v => readHexDigits cs (16 * acc + v) (n + 1)
    | none => (acc, n, c :: cs)

/-- Reads an optional sign: `true` for a minus sign, and the characters left. -/
def readSign : List Char → Bool × List Char
  | '-' :: cs => (true, cs)
  | '+' :: cs => (false, cs)
  | cs => (false, cs)

/-- Reads an optional exponent part, introduced by one of the two given letters and made of
an optional sign and decimal digits: the exponent and the characters left; without digits
after the letter nothing is read and the exponent is `0`. -/
def readExponent (lower upper : Char) : List Char → Int × List Char
  | [] => (0, [])
  | c :: cs =>
    if c = lower ∨ c = upper then
      let (neg, cs1) := readSign cs
      let (e, n, cs2) := readDigits cs1 0 0
      if n = 0 then (0, c :: cs) else (if neg then -(e : Int) else (e : Int), cs2)
    else (0, c :: cs)

/-- A number as `strtof` reads it from a text: sign, digits and exponent, standing for
`± mant * base ^ exp` with `base` ten (decimal text) or two (hexadecimal text). -/
structure Numeral where
  neg : Bool
  mant : Nat
  base : Nat
  exp : Int

/-- The magnitude `mant * base ^ exp` of a numeral. -/
def Numeral.magnitude (x : Numeral) : ℚ :=
  if 0 ≤ x.exp then (x.mant : ℚ) * (x.base : ℚ) ^ x.exp.toNat
  else (x.mant : ℚ) / (x.base : ℚ) ^ (-x.exp).toNat

/-- The number a numeral stands for. -/
def Numeral.value (x : Numeral) : ℚ :=
  if x.neg then -x.magnitude else x.magnitude

/-- Whether the magnitude of a numeral rounds beyond the largest binary32 number, that is,
whether it is at least `2 ^ 128 - 2 ^ 103`. -/
def Numeral.overflows (x : Numeral) : Bool :=
  if 0 ≤ x.exp then decide (2 ^ 128 - 2 ^ 103 ≤ x.mant * x.base ^ x.exp.toNat)
  else decide ((2 ^ 128 - 2 ^ 103) * x.base ^ (-x.exp).toNat ≤ x.mant)

/-- Whether a numeral underflows: it is not zero, its magnitude rounds to less than the
smallest normal binary32 number `2 ^ (-126)`, that is, it is below `2 ^ (-126) - 2 ^ (-151)`,
and it is not a multiple of `2 ^ (-149)`, so that its binary32 value is inexact. -/
def Numeral.underflows (x : Numeral) : Bool :=
  if 0 ≤ x.exp then false
  else
    decide (x.mant ≠ 0 ∧ x.mant * 2 ^ 151 < (2 ^ 25 - 1) * x.base ^ (-x.exp).toNat ∧
      (x.mant * 2 ^ 149) % x.base ^ (-x.exp).toNat ≠ 0)

/-- Reads digits with an optional point among them, with the given reader of digit runs:
the digits as one number, how many of them stand after the point, and the characters left;
`none` when there is no digit at all. -/
def readPointed (digits : List Char → Nat → Nat → Nat × Nat × List Char) (cs : List Char) :
    Option (Nat × Nat × List Char) :=
  let (ip, n1, cs2) := digits cs 0 0
  let (m, n2, cs3) :=
    match cs2 with
    | '.' :: rest => digits rest ip 0
    | rest => (ip, 0, rest)
  if n1 + n2 = 0 then none else some (m, n2, cs3)

/-- Reads a hexadecimal numeral after its sign: `0x` or `0X`, hexadecimal digits with an
optional point, and an optional binary exponent `p±ddd`. -/
def readHex (neg : Bool) : List Char → Option (Numeral × List Char)
  | '0' :: x :: cs =>
    if x = 'x' ∨ x = 'X' then
      match readPointed readHexDigits cs with
      | none => none
      | some (m, n2, cs3) =>
        let (e, cs4) := readExponent 'p' 'P' cs3
        some ({ neg := neg, mant := m, base := 2, exp := e - 4 * (n2 : Int) }, cs4)
    else none
  | _ => none

/-- Reads a decimal numeral after its sign: decimal digits with an optional point, and an
optional decimal exponent `e±ddd`. -/
def readDec (neg : Bool) (cs : List Char) : Option (Numeral × List Char) :=
  match readPointed readDigits cs with
  | none => none
  | some (m, n2, cs3) =>
    let (e, cs4) := readExponent 'e' 'E' cs3
    some ({ neg := neg, mant := m, base := 10, exp := e - (n2 : Int) }, cs4)

/-- A model of the prefix `strtof` reads from a text: leading white space is skipped, then
an optional sign and the longest hexadecimal or decimal numeral are read.  The result is the
numeral and the characters left unread, or `none` when no numeral can be read (no
conversion).  The spellings of infinity and of not-a-number, which stand for no number, are
outside this model and give `none`. -/
def strtof (cs : List Char) : Option (Numeral × List Char) :=
  let (neg, cs1) := readSign (cs.dropWhile isSpace)
  match readHex neg cs1 with
  | some r => some r
  | none => readDec neg cs1

/-- A model of `std::stof(s)`: the binary32 number nearest to the number `strtof` reads from
the longest numeric prefix of `s`, whatever follows that prefix; `std::invalid_argument` when
no conversion can be performed, `std::out_of_range` when the number overflows binary32 or
underflows it (whether an underflow is reported is left to the C library; the model follows
the GNU C library). -/
def stof (s : String) : Except Exception ℚ :=
  match strtof s.data with
  | none => .error Exception.invalid_argument
  | some (x, _) =>
    if x.overflows || x.underflows then .error Exception.out_of_range
    else .ok (round32 x.value)

/-- Whether a text is, as a whole, the text of a number: `strtof` converts it and leaves no
character unread. -/
def isNumberText (s : String) : Bool :=
  match strtof s.data with
  | some (_, []) => true
  | _ => false

/-- Whether `x` is a binary32 number: rounding leaves it as it is and it lies in the range of
binary32. -/
def isBinary32 (x : ℚ) : Prop :=
  round32 x = x ∧ -(2 : ℚ) ^ 128 < x ∧ x < (2 : ℚ) ^ 128

/-- A model of the sum Eigen takes over the coefficients of a row of binary32 numbers: the
coefficients are added one after the other, from the first column on, and every addition is
rounded to binary32. -/
def sum : List ℚ → ℚ
  | [] => 0
  | x :: xs => xs.foldl (fun acc y => round32 (acc + y)) x

/-- Splits a list of characters at every `+`. -/
def splitPlus : List Char → List (List Char)
  | [] => [[]]
  | c :: cs =>
    match splitPlus cs with
    | [] => [[c]]
    | p :: ps => if c = '+' then [] :: p :: ps else (c :: p) :: ps

/-- Removes the blanks at both ends of a list of characters. -/
def trim (cs : List Char) : List Char :=
  ((cs.dropWhile isSpace).reverse.dropWhile isSpace).reverse

/-- Modelled from the spec: the tokenizer `functions::_RegexIter` and its pattern
`const_variables::pat_big` are not among the sources.  By the spec a side is a sequence of
terms separated by `+`, each term a species token optionally prefixed by a directly adjacent
coefficient text.  Here the species token starts at the first capital letter of the term and
a term without a species token gives no match. -/
def regexIter (term : String) : List (String × String) :=
  (splitPlus term.data).filterMap fun piece =>
    let p := trim piece
    let name := p.dropWhile (fun c => !c.isUpper)
    if name = [] then none
    else some (String.mk (p.takeWhile (fun c => !c.isUpper)), String.mk name)

/-- Modelled from the spec: the registry `ChemBase::getChemPtr` is not among the sources.  By
the spec the same name always yields the same handle and distinct names yield distinct
handles; here the handle of a species is its name. -/
def getChemPtr (name : String) : Except Exception String :=
  .ok name

/-- The collaborators used in the worked examples. -/
def deps : Deps String :=
  { regexIter := regexIter, stof := stof, getChemPtr := getChemPtr, sum := sum }

/-- What the getters show of a constructed object: the species list and the columns of the
matrix, from the first column to the last. -/
def view (r : Except Exception (RxnBase String)) : Option (List String × List (List ℚ)) :=
  match r with
  | .ok self =>
    some (self.getChemIdx, (List.range self.getEffiMat.cols).map self.getEffiMat.col)
  | .error _ => none

end model

/-! ## The terms of an equation, as the specification describes them -/

namespace spec

variable {H : Type} [DecidableEq H]

/-- The sign convention: `-1` on the reactant side (`direction = true`), `+1` on the
product side. -/
def sign (direction : Bool) : ℚ :=
  if direction then -1 else 1

/-- The magnitude of a coefficient text: `1` for the empty text, otherwise the number
`std::stof` reads from it. -/
def magnitude (d : Deps H) (coefficientText : String) : Except Exception ℚ :=
  if coefficientText = "" then .ok 1 else d.stof coefficientText

/-- The term `(signed coefficient, handle)` of one token: the sign of its side times the
magnitude of its coefficient text, and the handle of its species name. -/
def tokenTerm (d : Deps H) (direction : Bool) (m : String × String) :
    Except Exception (ℚ × H) :=
  match magnitude d m.1 with
  | .error e => .error e
  | .ok v =>
    match d.getChemPtr m.2 with
    | .error e => .error e
    | .ok h => .ok (sign direction * v, h)

/-- The terms of a list of tokens, each token with the direction of its side; the first
token that is refused decides the error. -/
def tokensTerms (d : Deps H) : List (Bool × String × String) → Except Exception (List (ℚ × H))
  | [] => .ok []
  | (direction, m) :: rest =>
    match tokenTerm d direction m with
    | .error e => .error e
    | .ok t =>
      match tokensTerms d rest with
      | .error e => .error e
      | .ok ts => .ok (t :: ts)

/-- The two sides of an equation: the text before its first `=` and the text after it. -/
def sides (eqn : String) : Option (String × String) :=
  match std.find eqn '=' with
  | none => none
  | some strIdx => some (std.substr eqn 0 strIdx, std.substrFrom eqn (strIdx + 1))

/-- The tokens of one equation: those of the reactant side, then those of the product
side, each with the direction of its side. -/
def eqnTokens (d : Deps H) (eqn : String) : List (Bool × String × String) :=
  match sides eqn with
  | none => []
  | some (reac, prod) =>
    (d.regexIter reac).map (fun m => (true, m)) ++ (d.regexIter prod).map (fun m => (false, m))

/-- The parse of one equation: the malformed-equation error when it has no `=`, otherwise
the terms of its tokens. -/
def parseEqn (d : Deps H) (eqn : String) : Except Exception (List (ℚ × H)) :=
  match sides eqn with
  | none => .error (Exception.runtime_error "Invalid chemical reaction has entered.")
  | some _ => tokensTerms d (eqnTokens d eqn)

/-- The parse of a list of equations; the first equation that is refused decides the
error. -/
def parse (d : Deps H) : List String → Except Exception (List (List (ℚ × H)))
  | [] => .ok []
  | eqn :: rest =>
    match parseEqn d eqn with
    | .error e => .error e
    | .ok ts =>
      match parse d rest with
      | .error e => .error e
      | .ok tss => .ok (ts :: tss)

/-- The terms of one equation: those of the reactant side, then those of the product side
(the tokens that are refused give no term). -/
def eqnTerms (d : Deps H) (eqn : String) : List (ℚ × H) :=
  (eqnTokens d eqn).filterMap (fun x => (tokenTerm d x.1 x.2).toOption)

/-- The handles of all terms of a list of equations: equation by equation, and inside an
equation in the order of its terms. -/
def handles (d : Deps H) (eqnVec : List String) : List H :=
  ((eqnVec.map (eqnTerms d)).flatten).map Prod.snd

/-- A list of handles with every handle kept at its first occurrence only. -/
def firstSeen : List H → List H
  | [] => []
  | h :: hs => h :: (firstSeen hs).filter (fun x => x ≠ h)

/-- The sum of the signed coefficients of the terms whose handle is `h`. -/
def coeffSum (terms : List (ℚ × H)) (h : H) : ℚ :=
  ((terms.filter (fun t => t.2 = h)).map Prod.fst).sum

/-- The update `matrix[i][j] += coeff` of the specification. -/
def addCell (M : MatrixXf) (i j : Nat) (v : ℚ) : MatrixXf :=
  { M with coeff := fun a b => if a = i ∧ b = j then M.coeff a b + v else M.coeff a b }

/-- The additive placement of the terms of equation `j`: for every term, in order, the
coefficient is added to the cell of column `j` in the row at the position of the handle in
the species list. -/
def addColumn (species : List H) (j : Nat) (ts : List (ℚ × H)) (M : MatrixXf) : MatrixXf :=
  ts.foldl (fun M t => spec.addCell M (species.indexOf t.2) j t.1) M

/-- The `MatrixAssembler` of the specification: an `R × (C + 1)` matrix, zero-initialised;
every term of every equation added into its cell; then, for every row, the last column set
to the sum of the columns `0 .. C - 1` of that row. -/
def assemble (species : List H) (tss : List (List (ℚ × H))) : MatrixXf :=
  let M0 := MatrixXf.zero species.length (tss.length + 1)
  let M1 := (List.range tss.length).foldl
    (fun M j => spec.addColumn species j (tss.getD j []) M) M0
  (List.range species.length).foldl
    (fun M i =>
      { M with coeff := fun a b =>
          if a = i ∧ b = tss.length then ((List.range tss.length).map (M.coeff i)).sum
          else M.coeff a b }) M1

end spec

/-! ## Auxiliary definitions for the proofs -/

section auxiliary

variable {H : Type} [DecidableEq H]

open RxnBase

/-- The update of `_ChemIdx` in `_parseTerm`: a handle not yet listed is appended. -/
def register (chemIdx : List H) (h : H) : List H :=
  if functions.inVector chemIdx h then chemIdx else chemIdx ++ [h]

/-- The list `_ChemIdx` after the handles `hs` went through `_parseTerm`, in order. -/
def registerAll (chemIdx : List H) (hs : List H) : List H :=
  hs.foldl register chemIdx

/-- The state of `_parseTerm` after the terms `ts` were emitted from the state `st`. -/
def pushTerms (st : TermOut H) (ts : List (ℚ × H)) : TermOut H :=
  { effiVec := st.effiVec ++ ts.map Prod.fst
    chemVec := st.chemVec ++ ts.map Prod.snd
    self := { st.self with _ChemIdx := registerAll st.self._ChemIdx (ts.map Prod.snd) } }

/-- The locals of `_setMat` after the equations with the terms `tss` were parsed from the
state `st`. -/
def pushEqns (st : Locals H) (tss : List (List (ℚ × H))) : Locals H :=
  { effiVec := st.effiVec ++ tss.map (fun ts => ts.map Prod.fst)
    chemVec := st.chemVec ++ tss.map (fun ts => ts.map Prod.snd)
    curEqnIdx := st.curEqnIdx + tss.length
    self := { st.self with _ChemIdx := registerAll st.self._ChemIdx (tss.flatten.map Prod.snd) } }

/-- The value the inner loop of the second loop leaves in the cell of row `a`, for a column
whose terms are `ts` and whose cell held `init` before: every term of row `a` overwrites it. -/
def writeCol (chemIdx : List H) (ts : List (ℚ × H)) (init : ℚ) (a : Nat) : ℚ :=
  ts.foldl (fun acc t => if functions.getVecPos chemIdx t.2 = a then t.1 else acc) init

/-- The matrix after the second loop has run through the columns `0 .. m - 1`. -/
def filledMat (chemIdx : List H) (tss : List (List (ℚ × H))) (m : Nat) : MatrixXf :=
  { rows := chemIdx.length
    cols := tss.length + 1
    coeff := fun a b => if b < m then writeCol chemIdx (tss.getD b []) 0 a else 0 }

/-- The matrix after the third loop has run through the rows `0 .. n - 1` of `M`. -/
def summedMat (sum : List ℚ → ℚ) (M : MatrixXf) (C n : Nat) : MatrixXf :=
  { M with coeff := fun a b => if b = C ∧ a < n then M.rowSum sum a else M.coeff a b }

/-- The matrix `_setMat` leaves in `_EffiMat` for the species list `chemIdx` and the terms
`tss` of the equations. -/
def finalMat (sum : List ℚ → ℚ) (chemIdx : List H) (tss : List (List (ℚ × H))) : MatrixXf :=
  summedMat sum (filledMat chemIdx tss tss.length) tss.length chemIdx.length

/-- The object a construction built, for reading its getters in a worked example. -/
def model.built (x : Except Exception (RxnBase String)) : RxnBase String :=
  match x with
  | .ok r => r
  | .error _ => {}

/-- The object built from the single equation `"A + 2B = 3C"`. -/
def model.rxn1 : RxnBase String :=
  model.built (ofEqnVecComment model.deps ["A + 2B = 3C"] "")

/-- The object built from the two equations `"A = B"` and `"B = C"`. -/
def model.rxn2 : RxnBase String :=
  model.built (ofEqnVecComment model.deps ["A = B", "B = C"] "")

/-- The object built from the two equations `"A + B = C"` and `"C = A + B"`. -/
def model.rxn3 : RxnBase String :=
  model.built (ofEqnVecComment model.deps ["A + B = C", "C = A + B"] "")

/-- The state `_parseTerm` leaves after the reactant side `"A + 2B "`, from empty lists. -/
def model.side1 : TermOut String :=
  match _parseTerm model.deps "A + 2B " true { effiVec := [], chemVec := [], self := {} } with
  | .ok st => st
  | .error _ => { effiVec := [], chemVec := [], self := {} }

/-- The object built from `["A = B", "B = C"]` with the comment `"two steps"`. -/
def model.rxn4 : RxnBase String :=
  model.built (ofEqnVecComment model.deps ["A = B", "B = C"] "two steps")

/-- The locals of `_setMat` after its first loop over `["A = B", "B = C"]`. -/
def model.locals2 : Locals String :=
  match parseEqns model.deps ["A = B", "B = C"] {} with
  | .ok st => st
  | .error _ => { effiVec := [], chemVec := [], curEqnIdx := 0, self := {} }

/-- The object built from the single equation `"A + B = A + C"`. -/
def model.rxn5 : RxnBase String :=
  model.built (ofEqnVecComment model.deps ["A + B = A + C"] "")

/-- The object built from `["A = B", "B = C"]`, whose equations repeat no species. -/
def model.rxn6 : RxnBase String :=
  model.built (ofEqnVecComment model.deps ["A = B", "B = C"] "")

end auxiliary

/-! # Theorems -/

section theorems

variable {H : Type} [DecidableEq H]

open RxnBase

/-! ## Registration of handles -/

theorem register_eq (chemIdx : List H) (h : H) :
    register chemIdx h = if h ∈ chemIdx then chemIdx else chemIdx ++ [h] := by
  simp [register, functions.inVector]

theorem registerAll_nil (chemIdx : List H) : registerAll chemIdx [] = chemIdx := rfl

theorem registerAll_cons (chemIdx : List H) (h : H) (hs : List H) :
    registerAll chemIdx (h :: hs) = registerAll (register chemIdx h) hs := rfl

theorem registerAll_append (chemIdx : List H) (hs ks : List H) :
    registerAll chemIdx (hs ++ ks) = registerAll (registerAll chemIdx hs) ks := by
  simp [registerAll, List.foldl_append]

theorem registerAll_eq (chemIdx hs : List H) :
    registerAll chemIdx hs = chemIdx ++ (spec.firstSeen hs).filter (fun x => x ∉ chemIdx) := by
  induction hs generalizing chemIdx with
  | nil => simp [registerAll_nil, spec.firstSeen]
  | cons h hs ih =>
    rw [registerAll_cons, ih, register_eq]
    by_cases hmem : h ∈ chemIdx
    · simp only [hmem, if_true, spec.firstSeen]
      congr 1
      rw [List.filter_cons]
      simp only [hmem, not_true_eq_false, decide_False, Bool.false_eq_true, if_false,
        List.filter_filter]
      apply List.filter_congr
      intro x _
      by_cases hx : x ∈ chemIdx
      · simp [hx]
      · have : x ≠ h := fun e => hx (e ▸ hmem)
        simp [hx, this]
    · simp only [hmem, if_false, spec.firstSeen]
      rw [List.filter_cons]
      simp only [hmem, not_false_eq_true, decide_True, if_true, List.filter_filter,
        List.append_assoc, List.singleton_append]
      congr 2
      apply List.filter_congr
      intro x _
      simp [List.mem_append, not_or, Bool.and_comm]

theorem registerAll_nil_left (hs : List H) : registerAll [] hs = spec.firstSeen hs := by
  rw [registerAll_eq]
  simp

theorem registerAll_prefix (chemIdx hs : List H) : chemIdx <+: registerAll chemIdx hs := by
  rw [registerAll_eq]
  exact List.prefix_append _ _

theorem mem_firstSeen {hs : List H} {x : H} : x ∈ spec.firstSeen hs ↔ x ∈ hs := by
  induction hs with
  | nil => simp [spec.firstSeen]
  | cons h hs ih =>
    simp only [spec.firstSeen, List.mem_cons, List.mem_filter, ih]
    by_cases hx : x = h <;> simp [hx]

theorem nodup_firstSeen (hs : List H) : (spec.firstSeen hs).Nodup := by
  induction hs with
  | nil => simp [spec.firstSeen]
  | cons h hs ih =>
    simp only [spec.firstSeen, List.nodup_cons, List.mem_filter]
    refine ⟨by simp, ih.filter _⟩

theorem mem_registerAll {chemIdx hs : List H} {x : H} :
    x ∈ registerAll chemIdx hs ↔ x ∈ chemIdx ∨ x ∈ hs := by
  rw [registerAll_eq]
  simp only [List.mem_append, List.mem_filter, mem_firstSeen]
  by_cases hx : x ∈ chemIdx <;> simp [hx]

theorem nodup_registerAll {chemIdx : List H} (hnd : chemIdx.Nodup) (hs : List H) :
    (registerAll chemIdx hs).Nodup := by
  rw [registerAll_eq]
  refine List.Nodup.append hnd ((nodup_firstSeen hs).filter _) ?_
  intro x hx hx2
  simp only [List.mem_filter] at hx2
  simpa [hx] using hx2.2

/-! ## The first loop of `_setMat` computes the parse -/

theorem pushTerms_nil (st : TermOut H) : pushTerms st [] = st := by
  simp [pushTerms, registerAll_nil]

theorem pushTerms_cons (st : TermOut H) (t : ℚ × H) (ts : List (ℚ × H)) :
    pushTerms st (t :: ts) = pushTerms (pushTerms st [t]) ts := by
  simp [pushTerms, registerAll_cons, registerAll_nil]

theorem pushTerms_append (st : TermOut H) (ts us : List (ℚ × H)) :
    pushTerms st (ts ++ us) = pushTerms (pushTerms st ts) us := by
  simp [pushTerms, registerAll_append]

theorem parseStep_eq (d : Deps H) (direction : Bool) (st : TermOut H) (m : String × String) :
    parseStep d (if direction then -1 else 1) st m =
      (spec.tokenTerm d direction m).map (fun t => pushTerms st [t]) := by
  have hs : (((if direction then -1 else 1 : Int)) : ℚ) = spec.sign direction := by
    cases direction <;> simp [spec.sign]
  unfold parseStep spec.tokenTerm spec.magnitude
  by_cases hm : m.1 = ""
  · cases hg : d.getChemPtr m.2 <;>
      simp [hm, hg, hs, bind, Except.bind, pure, Except.pure, Except.map, pushTerms,
        registerAll, register]; split <;> rfl
  · cases hv : d.stof m.1 <;> cases hg : d.getChemPtr m.2 <;>
      simp [hm, hv, hg, hs, bind, Except.bind, pure, Except.pure, Except.map, pushTerms,
        registerAll, register]; split <;> rfl

theorem foldlM_parseStep (d : Deps H) (direction : Bool) (toks : List (String × String))
    (st : TermOut H) :
    toks.foldlM (parseStep d (if direction then -1 else 1)) st =
      (spec.tokensTerms d (toks.map (fun m => (direction, m)))).map (pushTerms st) := by
  induction toks generalizing st with
  | nil => simp [spec.tokensTerms, Except.map, pure, Except.pure, pushTerms_nil]
  | cons m ms ih =>
    rw [List.foldlM_cons, parseStep_eq]
    simp only [List.map_cons, spec.tokensTerms]
    cases ht : spec.tokenTerm d direction m with
    | error e => simp [Except.map, bind, Except.bind]
    | ok t =>
      simp only [Except.map, bind, Except.bind]
      rw [ih]
      cases hr : spec.tokensTerms d (ms.map (fun m => (direction, m))) with
      | error e => simp [Except.map]
      | ok ts => simp [Except.map, ← pushTerms_cons]

theorem parseTerm_eq (d : Deps H) (term : String) (direction : Bool) (st : TermOut H) :
    _parseTerm d term direction st =
      (spec.tokensTerms d ((d.regexIter term).map (fun m => (direction, m)))).map
        (pushTerms st) := by
  unfold _parseTerm
  exact foldlM_parseStep d direction _ st

theorem tokensTerms_append (d : Deps H) (xs ys : List (Bool × String × String)) :
    spec.tokensTerms d (xs ++ ys) =
      match spec.tokensTerms d xs with
      | .error e => .error e
      | .ok ts =>
        match spec.tokensTerms d ys with
        | .error e => .error e
        | .ok us => .ok (ts ++ us) := by
  induction xs with
  | nil => cases h : spec.tokensTerms d ys <;> simp [spec.tokensTerms, h]
  | cons x xs ih =>
    obtain ⟨dir, m⟩ := x
    simp only [List.cons_append, spec.tokensTerms, List.append_eq]
    rw [ih]
    cases spec.tokenTerm d dir m with
    | error e => rfl
    | ok t =>
      cases spec.tokensTerms d xs with
      | error e => rfl
      | ok ts => cases spec.tokensTerms d ys <;> rfl

theorem eqnStep_eq (d : Deps H) (st : Locals H) (eqn : String) :
    eqnStep d st eqn = (spec.parseEqn d eqn).map (fun ts => pushEqns st [ts]) := by
  unfold eqnStep spec.parseEqn spec.eqnTokens spec.sides
  cases hf : std.find eqn '=' with
  | none => simp [Except.map]
  | some strIdx =>
    simp only [parseTerm_eq, tokensTerms_append]
    cases h1 : spec.tokensTerms d
        ((d.regexIter (std.substr eqn 0 strIdx)).map (fun m => (true, m))) with
    | error e => simp [Except.map, bind, Except.bind]
    | ok ts =>
      cases h2 : spec.tokensTerms d
          ((d.regexIter (std.substrFrom eqn (strIdx + 1))).map (fun m => (false, m))) with
      | error e => simp [Except.map, bind, Except.bind]
      | ok us =>
        simp [Except.map, bind, Except.bind, pure, Except.pure, pushTerms, pushEqns,
          registerAll_append]

theorem pushEqns_nil (st : Locals H) : pushEqns st [] = st := by
  simp [pushEqns, registerAll_nil]

theorem pushEqns_cons (st : Locals H) (ts : List (ℚ × H)) (tss : List (List (ℚ × H))) :
    pushEqns st (ts :: tss) = pushEqns (pushEqns st [ts]) tss := by
  simp [pushEqns, registerAll_append, Nat.add_assoc, Nat.add_comm 1]

theorem foldlM_eqnStep (d : Deps H) (eqnVec : List String) (st : Locals H) :
    eqnVec.foldlM (eqnStep d) st = (spec.parse d eqnVec).map (pushEqns st) := by
  induction eqnVec generalizing st with
  | nil => simp [spec.parse, Except.map, pure, Except.pure, pushEqns_nil]
  | cons eqn rest ih =>
    rw [List.foldlM_cons, eqnStep_eq]
    simp only [spec.parse]
    cases ht : spec.parseEqn d eqn with
    | error e => simp [Except.map, bind, Except.bind]
    | ok ts =>
      simp only [Except.map, bind, Except.bind]
      rw [ih]
      cases hr : spec.parse d rest with
      | error e => simp [Except.map]
      | ok tss => simp [Except.map, ← pushEqns_cons]

theorem parseEqns_eq (d : Deps H) (eqnVec : List String) (self : RxnBase H) :
    parseEqns d eqnVec self =
      (spec.parse d eqnVec).map
        (pushEqns { effiVec := [], chemVec := [], curEqnIdx := 0, self := self }) := by
  unfold parseEqns
  exact foldlM_eqnStep d eqnVec _

/-! ## The second and third loops of `_setMat` -/

theorem MatrixXf.set_ok {M : MatrixXf} {i j : Nat} (hi : i < M.rows) (hj : j < M.cols) (v : ℚ) :
    M.set i j v =
      .ok { M with coeff := fun a b => if a = i ∧ b = j then v else M.coeff a b } := by
  simp [MatrixXf.set, hi, hj]

theorem foldlM_range_succ {α : Type} (f : α → Nat → Except Exception α) (n : Nat) (x : α) :
    (List.range (n + 1)).foldlM f x = (List.range n).foldlM f x >>= fun y => f y n := by
  rw [List.range_succ, List.foldlM_append]
  simp

theorem foldlM_cellStep (chemIdx : List H) (j : Nat) (ts : List (ℚ × H)) (M : MatrixXf)
    (hrows : M.rows = chemIdx.length) (hj : j < M.cols)
    (hmem : ∀ t ∈ ts, t.2 ∈ chemIdx) (n : Nat) (hn : n ≤ ts.length) :
    (List.range n).foldlM (cellStep chemIdx j (ts.map Prod.fst) (ts.map Prod.snd)) M =
      .ok { M with coeff := fun a b =>
              if b = j then writeCol chemIdx (ts.take n) (M.coeff a j) a else M.coeff a b } := by
  induction n with
  | zero =>
    simp only [List.range_zero, List.foldlM_nil, List.take_zero, writeCol, List.foldl_nil, pure,
      Except.pure]
    congr 1
    cases M
    simp only [MatrixXf.mk.injEq, true_and]
    funext a b
    by_cases hb : b = j <;> simp [hb]
  | succ n ih =>
    have hlt : n < ts.length := hn
    rw [foldlM_range_succ, ih (Nat.le_of_lt hlt)]
    simp only [bind, Except.bind, cellStep, List.getElem?_map, List.getElem?_eq_getElem hlt,
      Option.map_some']
    have hpos : functions.getVecPos chemIdx ts[n].2 < M.rows := by
      rw [hrows]
      exact List.indexOf_lt_length.mpr (hmem _ (List.getElem_mem hlt))
    rw [MatrixXf.set_ok (by exact hpos) (by exact hj)]
    congr 1
    simp only [MatrixXf.mk.injEq, true_and]
    funext a b
    rw [List.take_succ, List.getElem?_eq_getElem hlt]
    simp only [writeCol, Option.toList_some, List.foldl_append, List.foldl_cons, List.foldl_nil]
    by_cases hb : b = j
    · by_cases ha : a = functions.getVecPos chemIdx ts[n].2
      · simp [hb, ha]
      · have ha2 : ¬ functions.getVecPos chemIdx ts[n].2 = a := fun e => ha e.symm
        simp [hb, ha, ha2]
    · simp [hb]

theorem foldlM_colStep (st : Locals H) (tss : List (List (ℚ × H)))
    (heffi : st.effiVec = tss.map (fun ts => ts.map Prod.fst))
    (hchem : st.chemVec = tss.map (fun ts => ts.map Prod.snd))
    (hmem : ∀ ts ∈ tss, ∀ t ∈ ts, t.2 ∈ st.self._ChemIdx) (m : Nat) (hm : m ≤ tss.length) :
    (List.range m).foldlM (colStep st) (MatrixXf.zero st.self._ChemIdx.length (tss.length + 1)) =
      .ok (filledMat st.self._ChemIdx tss m) := by
  induction m with
  | zero => simp [MatrixXf.zero, filledMat, pure, Except.pure]
  | succ m ih =>
    have hlt : m < tss.length := hm
    rw [foldlM_range_succ, ih (Nat.le_of_lt hlt)]
    simp only [bind, Except.bind, colStep, heffi, hchem, List.getElem?_map,
      List.getElem?_eq_getElem hlt, Option.map_some']
    have h := foldlM_cellStep st.self._ChemIdx m tss[m] (filledMat st.self._ChemIdx tss m) rfl
      (by simp [filledMat]; omega) (hmem _ (List.getElem_mem hlt)) tss[m].length (Nat.le_refl _)
    simp only [List.length_map]
    rw [h]
    congr 1
    simp only [filledMat, MatrixXf.mk.injEq, true_and, List.take_length]
    funext a b
    by_cases hb : b = m
    · subst hb
      simp [List.getD_eq_getElem?_getD, List.getElem?_eq_getElem hlt]
    · have : b < m + 1 ↔ b < m := by omega
      simp [hb, this]

theorem rowSum_summedMat (sum : List ℚ → ℚ) (M : MatrixXf) (C n : Nat) :
    (summedMat sum M C n).rowSum sum n = M.rowSum sum n := by
  simp [summedMat, MatrixXf.rowSum]

theorem foldlM_sumStep (d : Deps H) (M : MatrixXf) (C : Nat) (hC : C < M.cols) (n : Nat)
    (hn : n ≤ M.rows) :
    (List.range n).foldlM (sumStep d C) M = .ok (summedMat d.sum M C n) := by
  induction n with
  | zero => simp [summedMat, pure, Except.pure]
  | succ n ih =>
    have hlt : n < M.rows := hn
    rw [foldlM_range_succ, ih (Nat.le_of_lt hlt)]
    simp only [bind, Except.bind, sumStep, rowSum_summedMat]
    rw [MatrixXf.set_ok (by exact hlt) (by exact hC)]
    congr 1
    simp only [summedMat, MatrixXf.mk.injEq, true_and]
    funext a b
    by_cases hb : b = C
    · by_cases ha : a = n
      · simp [hb, ha]
      · have : a < n + 1 ↔ a < n := by omega
        simp [hb, ha, this]
    · simp [hb]

theorem fillMat_eq (d : Deps H) (st : Locals H) (tss : List (List (ℚ × H)))
    (heffi : st.effiVec = tss.map (fun ts => ts.map Prod.fst))
    (hchem : st.chemVec = tss.map (fun ts => ts.map Prod.snd))
    (hidx : st.curEqnIdx = tss.length)
    (hmem : ∀ ts ∈ tss, ∀ t ∈ ts, t.2 ∈ st.self._ChemIdx) :
    fillMat d st = .ok { st.self with _EffiMat := finalMat d.sum st.self._ChemIdx tss } := by
  unfold fillMat
  simp only [hidx]
  rw [foldlM_colStep st tss heffi hchem hmem tss.length (Nat.le_refl _)]
  simp only [bind, Except.bind]
  rw [foldlM_sumStep d _ _ (by simp [filledMat]) _ (Nat.le_refl _)]
  simp [finalMat, filledMat, pure, Except.pure]

/-! ## What `_setMat` computes -/

theorem tokensTerms_ok {d : Deps H} {toks : List (Bool × String × String)} {ts : List (ℚ × H)}
    (h : spec.tokensTerms d toks = .ok ts) :
    List.Forall₂ (fun x t => spec.tokenTerm d x.1 x.2 = .ok t) toks ts := by
  induction toks generalizing ts with
  | nil =>
    simp only [spec.tokensTerms, Except.ok.injEq] at h
    subst h
    exact List.Forall₂.nil
  | cons x xs ih =>
    obtain ⟨dir, m⟩ := x
    simp only [spec.tokensTerms] at h
    cases h1 : spec.tokenTerm d dir m with
    | error e => simp [h1] at h
    | ok t =>
      cases h2 : spec.tokensTerms d xs with
      | error e => simp [h1, h2] at h
      | ok us =>
        simp only [h1, h2, Except.ok.injEq] at h
        subst h
        exact List.Forall₂.cons h1 (ih h2)

theorem filterMap_tokenTerm {d : Deps H} {toks : List (Bool × String × String)}
    {ts : List (ℚ × H)}
    (h : List.Forall₂ (fun x t => spec.tokenTerm d x.1 x.2 = .ok t) toks ts) :
    toks.filterMap (fun x => (spec.tokenTerm d x.1 x.2).toOption) = ts := by
  induction h with
  | nil => rfl
  | cons h1 _ ih =>
    rw [List.filterMap_cons, h1, ih]
    rfl

theorem parseEqn_ok {d : Deps H} {eqn : String} {ts : List (ℚ × H)}
    (h : spec.parseEqn d eqn = .ok ts) :
    ts = spec.eqnTerms d eqn ∧
      List.Forall₂ (fun x t => spec.tokenTerm d x.1 x.2 = .ok t) (spec.eqnTokens d eqn) ts := by
  unfold spec.parseEqn at h
  cases hs : spec.sides eqn with
  | none => simp [hs] at h
  | some p =>
    simp only [hs] at h
    have h2 := tokensTerms_ok h
    exact ⟨(filterMap_tokenTerm h2).symm, h2⟩

theorem parse_ok {d : Deps H} {eqnVec : List String} {tss : List (List (ℚ × H))}
    (h : spec.parse d eqnVec = .ok tss) :
    tss = eqnVec.map (spec.eqnTerms d) ∧
      ∀ eqn ∈ eqnVec, spec.parseEqn d eqn = .ok (spec.eqnTerms d eqn) := by
  induction eqnVec generalizing tss with
  | nil =>
    simp only [spec.parse, Except.ok.injEq] at h
    subst h
    simp
  | cons eqn rest ih =>
    simp only [spec.parse] at h
    cases h1 : spec.parseEqn d eqn with
    | error e => simp [h1] at h
    | ok ts =>
      cases h2 : spec.parse d rest with
      | error e => simp [h1, h2] at h
      | ok uss =>
        simp only [h1, h2, Except.ok.injEq] at h
        subst h
        obtain ⟨e1, e2⟩ := ih h2
        have e3 := (parseEqn_ok h1).1
        subst e3
        refine ⟨by simp [e1], ?_⟩
        intro x hx
        rcases List.mem_cons.mp hx with hx | hx
        · subst hx
          exact h1
        · exact e2 x hx

theorem setMat_eq (d : Deps H) (eqnVec : List String) (self : RxnBase H) :
    _setMat d eqnVec self =
      (spec.parse d eqnVec).map (fun tss =>
        { self with
          _ChemIdx := registerAll self._ChemIdx (tss.flatten.map Prod.snd)
          _EffiMat :=
            finalMat d.sum (registerAll self._ChemIdx (tss.flatten.map Prod.snd)) tss }) := by
  unfold _setMat
  rw [parseEqns_eq]
  cases hp : spec.parse d eqnVec with
  | error e => simp [Except.map, bind, Except.bind]
  | ok tss =>
    simp only [Except.map, bind, Except.bind]
    rw [fillMat_eq d _ tss (by simp [pushEqns]) (by simp [pushEqns]) (by simp [pushEqns])]
    · simp [pushEqns]
    · intro ts hts t ht
      simp only [pushEqns, mem_registerAll]
      right
      exact List.mem_map.mpr ⟨t, List.mem_flatten.mpr ⟨ts, hts, ht⟩, rfl⟩

theorem ofEqnVecComment_ok {d : Deps H} {eqnVec : List String} {Comment : String}
    {r : RxnBase H} (h : ofEqnVecComment d eqnVec Comment = .ok r) :
    spec.parse d eqnVec = .ok (eqnVec.map (spec.eqnTerms d)) ∧
      r = { _Comment := Comment
            _ChemIdx := spec.firstSeen (spec.handles d eqnVec)
            _EffiMat := finalMat d.sum (spec.firstSeen (spec.handles d eqnVec))
              (eqnVec.map (spec.eqnTerms d)) } := by
  unfold ofEqnVecComment at h
  rw [setMat_eq] at h
  cases hp : spec.parse d eqnVec with
  | error e => simp [hp, Except.map] at h
  | ok tss =>
    have e1 := (parse_ok hp).1
    subst e1
    simp only [hp, Except.map, Except.ok.injEq, registerAll_nil_left] at h
    exact ⟨rfl, h.symm⟩

theorem ofEqnVecComment_of_parse {d : Deps H} {eqnVec : List String} (Comment : String)
    {tss : List (List (ℚ × H))} (h : spec.parse d eqnVec = .ok tss) :
    ∃ r, ofEqnVecComment d eqnVec Comment = .ok r := by
  unfold ofEqnVecComment
  rw [setMat_eq, h]
  exact ⟨_, rfl⟩

theorem ofEqnVecComment_error {d : Deps H} {eqnVec : List String} (Comment : String)
    {e : Exception} (h : spec.parse d eqnVec = .error e) :
    ofEqnVecComment d eqnVec Comment = .error e := by
  unfold ofEqnVecComment
  rw [setMat_eq, h]
  rfl

/-! ## The cells of the matrix -/

theorem getVecPos_eq_iff {chemIdx : List H} (hnd : chemIdx.Nodup) {a : Nat}
    (ha : a < chemIdx.length) (x : H) :
    functions.getVecPos chemIdx x = a ↔ x = chemIdx[a] := by
  unfold functions.getVecPos
  constructor
  · intro h
    subst h
    exact (List.getElem_indexOf ha).symm
  · intro h
    subst h
    exact List.indexOf_getElem hnd a ha

theorem writeCol_cons (chemIdx : List H) (t : ℚ × H) (ts : List (ℚ × H)) (init : ℚ) (a : Nat) :
    writeCol chemIdx (t :: ts) init a =
      writeCol chemIdx ts (if functions.getVecPos chemIdx t.2 = a then t.1 else init) a := rfl

theorem writeCol_eq_getLast {chemIdx : List H} (hnd : chemIdx.Nodup) {a : Nat}
    (ha : a < chemIdx.length) (ts : List (ℚ × H)) (init : ℚ) :
    writeCol chemIdx ts init a =
      (((ts.filter (fun t => t.2 = chemIdx[a])).getLast?).map Prod.fst).getD init := by
  induction ts generalizing init with
  | nil => simp [writeCol]
  | cons t ts ih =>
    rw [writeCol_cons, ih]
    simp only [getVecPos_eq_iff hnd ha]
    by_cases ht : t.2 = chemIdx[a]
    · simp only [ht, if_true, List.filter_cons, decide_True, List.getLast?_cons]
      cases (List.filter (fun t => decide (t.2 = chemIdx[a])) ts).getLast? <;> simp
    · simp [ht, List.filter_cons]

theorem length_filter_handle (ts : List (ℚ × H)) (h : H) :
    (ts.filter (fun t => t.2 = h)).length = (ts.map Prod.snd).count h := by
  induction ts with
  | nil => simp
  | cons t ts ih =>
    by_cases ht : t.2 = h
    · simp [List.filter_cons, ht, ih]
    · simp [List.filter_cons, ht, ih, List.count_cons]

theorem writeCol_absent {chemIdx : List H} (hnd : chemIdx.Nodup) {a : Nat}
    (ha : a < chemIdx.length) (ts : List (ℚ × H)) (init : ℚ)
    (habs : chemIdx[a] ∉ ts.map Prod.snd) : writeCol chemIdx ts init a = init := by
  rw [writeCol_eq_getLast hnd ha]
  have : ts.filter (fun t => t.2 = chemIdx[a]) = [] := by
    rw [List.filter_eq_nil_iff]
    intro t ht e
    apply habs
    simp only [decide_eq_true_eq] at e
    exact List.mem_map.mpr ⟨t, ht, e⟩
  simp [this]

theorem writeCol_eq_coeffSum {chemIdx : List H} (hnd : chemIdx.Nodup) {a : Nat}
    (ha : a < chemIdx.length) (ts : List (ℚ × H))
    (hone : (ts.map Prod.snd).count chemIdx[a] ≤ 1) :
    writeCol chemIdx ts 0 a = spec.coeffSum ts chemIdx[a] := by
  rw [writeCol_eq_getLast hnd ha, spec.coeffSum]
  rw [← length_filter_handle] at hone
  generalize ts.filter (fun t => t.2 = chemIdx[a]) = l at hone
  match l, hone with
  | [], _ => simp
  | [x], _ => simp
  | _ :: _ :: _, h => simp at h

theorem finalMat_rows (sum : List ℚ → ℚ) (chemIdx : List H) (tss : List (List (ℚ × H))) :
    (finalMat sum chemIdx tss).rows = chemIdx.length := rfl

theorem finalMat_cols (sum : List ℚ → ℚ) (chemIdx : List H) (tss : List (List (ℚ × H))) :
    (finalMat sum chemIdx tss).cols = tss.length + 1 := rfl

theorem finalMat_coeff_lt (sum : List ℚ → ℚ) (chemIdx : List H) (tss : List (List (ℚ × H)))
    (i j : Nat) (hj : j < tss.length) :
    (finalMat sum chemIdx tss).coeff i j = writeCol chemIdx tss[j] 0 i := by
  have hne : ¬ j = tss.length := Nat.ne_of_lt hj
  simp [finalMat, summedMat, filledMat, hne, hj, List.getD_eq_getElem?_getD]

theorem finalMat_coeff_last (sum : List ℚ → ℚ) (chemIdx : List H) (tss : List (List (ℚ × H)))
    (i : Nat) (hi : i < chemIdx.length) :
    (finalMat sum chemIdx tss).coeff i tss.length =
      sum ((List.range tss.length).map (fun j => (finalMat sum chemIdx tss).coeff i j) ++ [0]) := by
  have h1 : (finalMat sum chemIdx tss).coeff i tss.length =
      (filledMat chemIdx tss tss.length).rowSum sum i := by
    simp [finalMat, summedMat, filledMat, hi]
  have h2 : (filledMat chemIdx tss tss.length).rowSum sum i =
      sum ((List.range tss.length).map
        (fun j => (filledMat chemIdx tss tss.length).coeff i j) ++ [0]) := by
    simp [MatrixXf.rowSum, filledMat, List.range_succ]
  rw [h1, h2]
  congr 2
  apply List.map_congr_left
  intro j hj
  have hj2 : j < tss.length := List.mem_range.mp hj
  have hne : ¬ j = tss.length := Nat.ne_of_lt hj2
  simp [finalMat, summedMat, hne]

theorem ok_of_toOption {α : Type} {x : Except Exception α} {v : α}
    (h : x.toOption = some v) : x = .ok v := by
  cases x with
  | error e => simp [Except.toOption] at h
  | ok r =>
    simp only [Except.toOption, Option.some.injEq] at h
    rw [h]

theorem exists_of_isSome {α : Type} {x : Except Exception α} (h : x.toOption.isSome = true) :
    ∃ r, x = .ok r := by
  cases x with
  | error e => simp [Except.toOption] at h
  | ok r => exact ⟨r, rfl⟩

/-! ## The claims -/

theorem model_foldl_exact (pre rest : List ℚ)
    (h : ∀ k, model.round32 (((pre ++ rest).take k).sum) = ((pre ++ rest).take k).sum) :
    rest.foldl (fun acc y => model.round32 (acc + y)) pre.sum = (pre ++ rest).sum := by
  induction rest generalizing pre with
  | nil => simp
  | cons y ys ih =>
    have hstep : model.round32 (pre.sum + y) = (pre ++ [y]).sum := by
      have := h (pre.length + 1)
      have e : (pre ++ y :: ys).take (pre.length + 1) = pre ++ [y] := by
        rw [List.take_append_eq_append_take]
        simp
      rw [e] at this
      simpa using this
    rw [List.foldl_cons, hstep]
    have := ih (pre ++ [y]) (by simpa using h)
    simpa using this

theorem model_sum_exact (xs : List ℚ)
    (h : ∀ k, model.round32 ((xs.take k).sum) = (xs.take k).sum) : model.sum xs = xs.sum := by
  cases xs with
  | nil => rfl
  | cons x rest =>
    have := model_foldl_exact [x] rest (by simpa using h)
    simpa [model.sum] using this

theorem built_fields {d : Deps H} {eqnVec : List String} {Comment : String} {r : RxnBase H}
    (h : ofEqnVecComment d eqnVec Comment = .ok r) :
    r.getComment = Comment ∧ r.getChemIdx = spec.firstSeen (spec.handles d eqnVec) ∧
      r.getEffiMat = finalMat d.sum (spec.firstSeen (spec.handles d eqnVec))
        (eqnVec.map (spec.eqnTerms d)) := by
  have e := (ofEqnVecComment_ok h).2
  subst e
  exact ⟨rfl, rfl, rfl⟩

theorem built_cell {d : Deps H} {eqnVec : List String} {Comment : String} {r : RxnBase H}
    (h : ofEqnVecComment d eqnVec Comment = .ok r) (i j : Nat) (hj : j < eqnVec.length) :
    r.getEffiMat.coeff i j = writeCol r.getChemIdx (spec.eqnTerms d eqnVec[j]) 0 i := by
  obtain ⟨_, e2, e3⟩ := built_fields h
  rw [e3, e2, finalMat_coeff_lt _ _ _ _ _ (by simpa using hj)]
  simp

theorem built_last {d : Deps H} {eqnVec : List String} {Comment : String} {r : RxnBase H}
    (h : ofEqnVecComment d eqnVec Comment = .ok r) (i : Nat) (hi : i < r.getEffiMat.rows) :
    r.getEffiMat.coeff i eqnVec.length =
      d.sum ((List.range eqnVec.length).map (fun j => r.getEffiMat.coeff i j) ++ [0]) := by
  obtain ⟨_, _, e3⟩ := built_fields h
  rw [e3] at hi ⊢
  have hlen : (eqnVec.map (spec.eqnTerms d)).length = eqnVec.length := List.length_map _ _
  have := finalMat_coeff_last d.sum (spec.firstSeen (spec.handles d eqnVec))
    (eqnVec.map (spec.eqnTerms d)) i hi
  rw [hlen] at this
  exact this

theorem built_nodup {d : Deps H} {eqnVec : List String} {Comment : String} {r : RxnBase H}
    (h : ofEqnVecComment d eqnVec Comment = .ok r) : r.getChemIdx.Nodup := by
  rw [(built_fields h).2.1]
  exact nodup_firstSeen _

/-- Claim C1, counterexample: for `"A + A = B"` construction succeeds with the species `[A, B]`; the
signed coefficients of the terms of `A` sum to `-2`, but the cell of `A` in the column of the
equation holds `-1`. -/
theorem C1_counterexample :
    model.view (ofEqn model.deps "A + A = B") = some (["A", "B"], [[-1, 1], [-1, 1]]) ∧
      spec.coeffSum (spec.eqnTerms model.deps "A + A = B") "A" = -2 := by
  decide!

/-- Claim C1, amended: when construction succeeds, for every equation index `j` and every species
row `i` whose species occurs at most once among the terms of equation `j`, the cell `(i, j)`
equals the sum of the signed coefficients of the terms of equation `j` (reactants then
products) whose handle is the species of row `i`. -/
theorem C1_cell_is_sum_when_species_unrepeated (d : Deps H) (eqnVec : List String)
    (Comment : String) (r : RxnBase H) (h : ofEqnVecComment d eqnVec Comment = .ok r)
    (j : Nat) (hj : j < eqnVec.length) (i : Nat) (hi : i < r.getChemIdx.length)
    (hone : ((spec.eqnTerms d eqnVec[j]).map Prod.snd).count r.getChemIdx[i] ≤ 1) :
    r.getEffiMat.coeff i j = spec.coeffSum (spec.eqnTerms d eqnVec[j]) r.getChemIdx[i] := by
  rw [built_cell h i j hj]
  exact writeCol_eq_coeffSum (built_nodup h) hi _ hone

/-- Claim C1, witness: in `"A + 2B = 3C"` the species `B` occurs once, and its cell holds the
sum of its signed coefficients. -/
theorem C1_witness :
    ofEqnVecComment model.deps ["A + 2B = 3C"] "" = .ok model.rxn1 ∧
      model.rxn1.getEffiMat.coeff 1 0 =
        spec.coeffSum (spec.eqnTerms model.deps "A + 2B = 3C") "B" :=
  ⟨by rfl, C1_cell_is_sum_when_species_unrepeated model.deps ["A + 2B = 3C"] "" model.rxn1
    (by rfl) 0 (by decide) 1 (by decide) (by decide)⟩

/-- Claim C2, counterexample: for `["16777216A = B", "A = C"]` the row of `A` holds
`-16777216` and `-1` in the two equation columns; their sum is `-16777217`, which is no
binary32 number, and the last column holds `-16777216`. -/
theorem C2_counterexample :
    model.view (ofEqnVec model.deps ["16777216A = B", "A = C"]) =
        some (["A", "B", "C"],
          [[-16777216, 1, 0], [-1, 0, 1], [-16777216, 1, 1]]) ∧
      ([-16777216, -1] : List ℚ).sum = -16777217 ∧ (-16777216 : ℚ) ≠ -16777217 := by
  decide!

/-- Claim C2, amended: when construction succeeds, in every row of the matrix the entry of the
last column (index = number of equations) is the value Eigen's `sum()` returns for the
entries of that row in the equation columns `0 .. number of equations - 1` followed by the
still zero entry of the last column; it equals the exact sum of the entries in the equation
columns whenever that sum is taken exactly.  With binary32 additions from the first column
on (`model.sum`), the sum is taken exactly whenever every partial sum is a binary32 number. -/
theorem C2_last_column_is_sum_taken_over_binary32 (d : Deps H) (eqnVec : List String)
    (Comment : String) (r : RxnBase H) (h : ofEqnVecComment d eqnVec Comment = .ok r)
    (i : Nat) (hi : i < r.getEffiMat.rows) :
    r.getEffiMat.coeff i eqnVec.length =
        d.sum ((List.range eqnVec.length).map (fun j => r.getEffiMat.coeff i j) ++ [0]) ∧
      (d.sum ((List.range eqnVec.length).map (fun j => r.getEffiMat.coeff i j) ++ [0]) =
          ((List.range eqnVec.length).map (fun j => r.getEffiMat.coeff i j)).sum →
        r.getEffiMat.coeff i eqnVec.length =
          ((List.range eqnVec.length).map (fun j => r.getEffiMat.coeff i j)).sum) ∧
      ∀ xs : List ℚ,
        (∀ k, model.isBinary32 ((xs.take k).sum)) → model.sum (xs ++ [0]) = xs.sum := by
  have hlast := built_last h i hi
  refine ⟨hlast, fun hexact => hlast.trans hexact, ?_⟩
  intro xs hxs
  rw [model_sum_exact (xs ++ [0])]
  · simp
  · intro k
    by_cases hk : k ≤ xs.length
    · rw [List.take_append_of_le_length hk]
      exact (hxs k).1
    · have hk2 : xs.length ≤ k := by omega
      have e : (xs ++ [0]).take k = xs ++ [0] := by
        apply List.take_of_length_le
        simp
        omega
      rw [e]
      have := (hxs xs.length).1
      simpa using this

/-- Claim C2, witness: for `["A = B", "B = C"]` the last column of the row of `C` is the sum
taken over `0`, `1` and the still zero last entry, and that sum is exact. -/
theorem C2_witness :
    ofEqnVecComment model.deps ["A = B", "B = C"] "" = .ok model.rxn2 ∧
      2 < model.rxn2.getEffiMat.rows ∧
      model.rxn2.getEffiMat.coeff 2 2 =
        model.sum ((List.range 2).map (fun j => model.rxn2.getEffiMat.coeff 2 j) ++ [0]) ∧
      model.rxn2.getEffiMat.coeff 2 2 =
        ((List.range 2).map (fun j => model.rxn2.getEffiMat.coeff 2 j)).sum :=
  ⟨by rfl, by decide,
    (C2_last_column_is_sum_taken_over_binary32 model.deps ["A = B", "B = C"] "" model.rxn2
      (by rfl) 2 (by decide)).1,
    (C2_last_column_is_sum_taken_over_binary32 model.deps ["A = B", "B = C"] "" model.rxn2
      (by rfl) 2 (by decide)).2.1 (by decide!)⟩

/-- Claim C3: when construction succeeds, the species list returned by `getChemIdx` is the
sequence of the handles of all terms, equation by equation, reactant side before product
side, in token order, with every handle kept at its first occurrence only; the equations
`["A + B = C", "C = A + B"]` give `[A, B, C]`. -/
theorem C3_species_in_order_of_first_appearance (d : Deps H) (eqnVec : List String)
    (Comment : String) (r : RxnBase H) (h : ofEqnVecComment d eqnVec Comment = .ok r) :
    r.getChemIdx = spec.firstSeen (spec.handles d eqnVec) ∧
      (model.view (ofEqnVec model.deps ["A + B = C", "C = A + B"])).map Prod.fst =
        some ["A", "B", "C"] :=
  ⟨(built_fields h).2.1, by decide⟩

/-- Claim C3, witness: for `["A + B = C", "C = A + B"]` the species list is the first-occurrence
list of the handles `A, B, C, C, A, B`. -/
theorem C3_witness :
    ofEqnVecComment model.deps ["A + B = C", "C = A + B"] "" = .ok model.rxn3 ∧
      model.rxn3.getChemIdx =
        spec.firstSeen (spec.handles model.deps ["A + B = C", "C = A + B"]) ∧
      spec.handles model.deps ["A + B = C", "C = A + B"] = ["A", "B", "C", "C", "A", "B"] :=
  ⟨by rfl, (C3_species_in_order_of_first_appearance model.deps ["A + B = C", "C = A + B"] ""
    model.rxn3 (by rfl)).1, by decide⟩

/-- Claim C4: when construction succeeds, the species list holds no handle twice: two
distinct row indices of the matrix refer to distinct species handles. -/
theorem C4_rows_refer_to_distinct_species (d : Deps H) (eqnVec : List String)
    (Comment : String) (r : RxnBase H) (h : ofEqnVecComment d eqnVec Comment = .ok r)
    (i j : Nat) (hi : i < r.getChemIdx.length) (hj : j < r.getChemIdx.length) (hne : i ≠ j) :
    r.getChemIdx[i] ≠ r.getChemIdx[j] := by
  intro e
  exact hne (((built_nodup h).getElem_inj_iff).mp e)

/-- Claim C4, witness: for `["A + B = C", "C = A + B"]` the rows `0` and `2` refer to the
distinct species `A` and `C`. -/
theorem C4_witness :
    ofEqnVecComment model.deps ["A + B = C", "C = A + B"] "" = .ok model.rxn3 ∧
      model.rxn3.getChemIdx.length = 3 ∧ "A" ≠ "C" :=
  ⟨by rfl, by decide, C4_rows_refer_to_distinct_species model.deps ["A + B = C", "C = A + B"] ""
    model.rxn3 (by rfl) 0 2 (by decide) (by decide) (by decide)⟩

/-- Claim C5: when construction succeeds, the matrix has as many rows as the species list
has entries and (number of equations + 1) columns; construction from the empty list of
equations succeeds, with no row and one column. -/
theorem C5_matrix_shape (d : Deps H) (eqnVec : List String) (Comment : String)
    (r : RxnBase H) (h : ofEqnVecComment d eqnVec Comment = .ok r) :
    r.getEffiMat.rows = r.getChemIdx.length ∧ r.getEffiMat.cols = eqnVec.length + 1 ∧
      (ofEqnVecComment d [] Comment).toOption.map
        (fun r0 => (r0.getChemIdx, r0.getEffiMat.rows, r0.getEffiMat.cols)) = some ([], 0, 1) := by
  obtain ⟨_, e2, e3⟩ := built_fields h
  refine ⟨by rw [e3, e2, finalMat_rows], by rw [e3, finalMat_cols, List.length_map], ?_⟩
  rfl

/-- Claim C5, witness: for `["A + B = C", "C = A + B"]` the matrix has one row per species and
three columns. -/
theorem C5_witness :
    ofEqnVecComment model.deps ["A + B = C", "C = A + B"] "" = .ok model.rxn3 ∧
      model.rxn3.getEffiMat.rows = model.rxn3.getChemIdx.length ∧
      model.rxn3.getEffiMat.cols = 2 + 1 :=
  ⟨by rfl, (C5_matrix_shape model.deps ["A + B = C", "C = A + B"] "" model.rxn3 (by rfl)).1,
    (C5_matrix_shape model.deps ["A + B = C", "C = A + B"] "" model.rxn3 (by rfl)).2.1⟩

/-- Claim C6: when construction succeeds, for every equation index `j` and every species row
`i` whose handle does not occur among the terms of equation `j`, the cell `(i, j)` is `0`;
the equations `["A = B", "B = C"]` give the species `[A, B, C]` and the columns
`[-1, 1, 0]`, `[0, -1, 1]` and, for the sums, `[-1, 0, 1]`. -/
theorem C6_cell_of_absent_species_is_zero (d : Deps H) (eqnVec : List String)
    (Comment : String) (r : RxnBase H) (h : ofEqnVecComment d eqnVec Comment = .ok r)
    (j : Nat) (hj : j < eqnVec.length) (i : Nat) (hi : i < r.getChemIdx.length)
    (habs : r.getChemIdx[i] ∉ (spec.eqnTerms d eqnVec[j]).map Prod.snd) :
    r.getEffiMat.coeff i j = 0 ∧
      model.view (ofEqnVec model.deps ["A = B", "B = C"]) =
        some (["A", "B", "C"], [[-1, 1, 0], [0, -1, 1], [-1, 0, 1]]) := by
  refine ⟨?_, by decide!⟩
  rw [built_cell h i j hj]
  exact writeCol_absent (built_nodup h) hi _ 0 habs

/-- Claim C6, witness: for `["A = B", "B = C"]` the species `C` is absent from the first
equation and its cell there is `0`. -/
theorem C6_witness :
    ofEqnVecComment model.deps ["A = B", "B = C"] "" = .ok model.rxn2 ∧
      "C" ∉ (spec.eqnTerms model.deps "A = B").map Prod.snd ∧
      model.rxn2.getEffiMat.coeff 2 0 = 0 :=
  ⟨by rfl, by decide, (C6_cell_of_absent_species_is_zero model.deps ["A = B", "B = C"] ""
    model.rxn2 (by rfl) 0 (by decide) 2 (by decide) (by decide)).1⟩

theorem parseTerm_ok {d : Deps H} {term : String} {direction : Bool} {st st' : TermOut H}
    (h : _parseTerm d term direction st = .ok st') :
    ∃ ts, List.Forall₂ (fun m t => spec.tokenTerm d direction m = .ok t) (d.regexIter term) ts ∧
      st' = pushTerms st ts := by
  rw [parseTerm_eq] at h
  cases hp : spec.tokensTerms d ((d.regexIter term).map (fun m => (direction, m))) with
  | error e => simp [hp, Except.map] at h
  | ok ts =>
    simp only [hp, Except.map, Except.ok.injEq] at h
    refine ⟨ts, ?_, h.symm⟩
    have h2 := tokensTerms_ok hp
    rw [List.forall₂_map_left_iff] at h2
    exact h2

theorem tokenTerm_ok {d : Deps H} {direction : Bool} {m : String × String} {t : ℚ × H}
    (h : spec.tokenTerm d direction m = .ok t) :
    ∃ v, spec.magnitude d m.1 = .ok v ∧ d.getChemPtr m.2 = .ok t.2 ∧
      t.1 = spec.sign direction * v := by
  unfold spec.tokenTerm at h
  cases hv : spec.magnitude d m.1 with
  | error e => simp [hv] at h
  | ok v =>
    cases hg : d.getChemPtr m.2 with
    | error e => simp [hv, hg] at h
    | ok x =>
      simp only [hv, hg, Except.ok.injEq] at h
      subst h
      exact ⟨v, rfl, rfl, rfl⟩

theorem parseTerm_emits {d : Deps H} {term : String} {direction : Bool} {st st' : TermOut H}
    (h : _parseTerm d term direction st = .ok st') (k : Nat)
    (hk : k < (d.regexIter term).length) :
    ∃ v x, spec.magnitude d (d.regexIter term)[k].1 = .ok v ∧
      d.getChemPtr (d.regexIter term)[k].2 = .ok x ∧
      st'.effiVec[st.effiVec.length + k]? = some (spec.sign direction * v) ∧
      st'.chemVec[st.chemVec.length + k]? = some x := by
  obtain ⟨ts, hf, e⟩ := parseTerm_ok h
  subst e
  have hlen := hf.length_eq
  have hk2 : k < ts.length := hlen ▸ hk
  have hR := (List.forall₂_iff_get.mp hf).2 k hk hk2
  obtain ⟨v, h1, h2, h3⟩ := tokenTerm_ok hR
  refine ⟨v, (ts.get ⟨k, hk2⟩).2, h1, h2, ?_, ?_⟩
  · simp only [pushTerms, List.getElem?_append_right (Nat.le_add_right _ _),
      Nat.add_sub_cancel_left, List.getElem?_map, List.getElem?_eq_getElem hk2, Option.map_some',
      Option.some.injEq]
    exact h3
  · simp only [pushTerms, List.getElem?_append_right (Nat.le_add_right _ _),
      Nat.add_sub_cancel_left, List.getElem?_map, List.getElem?_eq_getElem hk2, Option.map_some',
      Option.some.injEq]
    rfl

/-- Claim C7, counterexample: the reactant side `"0A"` has the single token `("0", "A")`, and
the coefficient `_parseTerm` emits for it is `0`, which is not strictly negative. -/
theorem C7_counterexample :
    model.regexIter "0A" = [("0", "A")] ∧
      (_parseTerm model.deps "0A" true { effiVec := [], chemVec := [], self := {} }).toOption.map
        TermOut.effiVec = some [0] ∧
      ¬ ((0 : ℚ) < 0) := by
  decide!

/-- Claim C7, amended: for every side string and every token the tokenizer yields for it
whose coefficient text is empty or is read by `std::stof` as a strictly positive number, the
signed coefficient that a successful `_parseTerm` emits for the token is strictly negative
when the side is parsed as reactant (`direction = true`) and strictly positive when it is
parsed as product (`direction = false`), whatever the species symbol is. -/
theorem C7_sign_of_emitted_coefficient (d : Deps H) (term : String) (direction : Bool)
    (st st' : TermOut H) (h : _parseTerm d term direction st = .ok st') (k : Nat)
    (hk : k < (d.regexIter term).length)
    (hpos : (d.regexIter term)[k].1 = "" ∨
      ∃ v, d.stof (d.regexIter term)[k].1 = .ok v ∧ 0 < v) :
    ∃ c, st'.effiVec[st.effiVec.length + k]? = some c ∧
      (direction = true → c < 0) ∧ (direction = false → 0 < c) := by
  obtain ⟨v, _, hv, _, he, _⟩ := parseTerm_emits h k hk
  have hvpos : 0 < v := by
    unfold spec.magnitude at hv
    rcases hpos with h0 | ⟨w, hw, hwpos⟩
    · simp only [h0, if_true, Except.ok.injEq] at hv
      rw [← hv]
      exact one_pos
    · by_cases h0 : (d.regexIter term)[k].1 = ""
      · simp only [h0, if_true, Except.ok.injEq] at hv
        rw [← hv]
        exact one_pos
      · simp only [h0, if_false, hw, Except.ok.injEq] at hv
        rw [← hv]
        exact hwpos
  refine ⟨_, he, ?_, ?_⟩
  · intro hd
    simp only [spec.sign, hd, if_true]
    linarith
  · intro hd
    simp only [spec.sign, hd, Bool.false_eq_true, if_false]
    linarith

/-- Claim C7, witness: on the reactant side `"A + 2B "` the coefficient text `2` is read as a
positive number and the emitted coefficient is negative. -/
theorem C7_witness :
    _parseTerm model.deps "A + 2B " true { effiVec := [], chemVec := [], self := {} } =
        .ok model.side1 ∧
      (model.regexIter "A + 2B ").length = 2 ∧
      (∃ c, model.side1.effiVec[0 + 1]? = some c ∧ (true = true → c < 0) ∧
        (true = false → 0 < c)) :=
  ⟨by rfl, by decide, C7_sign_of_emitted_coefficient model.deps "A + 2B " true
    { effiVec := [], chemVec := [], self := {} } model.side1 (by rfl) 1 (by decide)
    (Or.inr ⟨2, ok_of_toOption (by decide!), by norm_num⟩)⟩

/-- Claim C8: for every token `(coefficientText, speciesName)` of a side, the coefficient a
successful `_parseTerm` emits equals sign times magnitude, where the sign is `-1` for a
reactant side and `+1` for a product side, and the magnitude is `1` when the coefficient
text is empty and the number `std::stof` reads from it otherwise; `"A + 2B = 3C"` gives the
species `[A, B, C]`, the equation column `[-1, -2, 3]` and the sum column `[-1, -2, 3]`. -/
theorem C8_emitted_coefficient_is_sign_times_magnitude (d : Deps H) (term : String)
    (direction : Bool) (st st' : TermOut H) (h : _parseTerm d term direction st = .ok st')
    (k : Nat) (hk : k < (d.regexIter term).length) :
    (∃ mag : ℚ,
        (((d.regexIter term)[k].1 = "" ∧ mag = 1) ∨
          ((d.regexIter term)[k].1 ≠ "" ∧ d.stof (d.regexIter term)[k].1 = .ok mag)) ∧
        st'.effiVec[st.effiVec.length + k]? = some ((if direction then -1 else 1) * mag)) ∧
      model.view (ofEqn model.deps "A + 2B = 3C") =
        some (["A", "B", "C"], [[-1, -2, 3], [-1, -2, 3]]) := by
  refine ⟨?_, by decide!⟩
  obtain ⟨v, _, hv, _, he, _⟩ := parseTerm_emits h k hk
  refine ⟨v, ?_, ?_⟩
  · unfold spec.magnitude at hv
    by_cases h0 : (d.regexIter term)[k].1 = ""
    · simp only [h0, if_true, Except.ok.injEq] at hv
      exact Or.inl ⟨h0, hv.symm⟩
    · simp only [h0, if_false] at hv
      exact Or.inr ⟨h0, hv⟩
  · rw [he]
    cases direction <;> simp [spec.sign]

/-- Claim C8, witness: on the reactant side `"A + 2B "` the token `("2", "B")` gives the
coefficient `-1` times the number read from `2`. -/
theorem C8_witness :
    _parseTerm model.deps "A + 2B " true { effiVec := [], chemVec := [], self := {} } =
        .ok model.side1 ∧
      model.regexIter "A + 2B " = [("", "A"), ("2", "B")] ∧
      ∃ mag : ℚ, (("2" = "" ∧ mag = 1) ∨ ("2" ≠ "" ∧ model.stof "2" = .ok mag)) ∧
        model.side1.effiVec[0 + 1]? = some ((if true then -1 else 1) * mag) :=
  ⟨by rfl, by decide, (C8_emitted_coefficient_is_sign_times_magnitude model.deps "A + 2B " true
    { effiVec := [], chemVec := [], self := {} } model.side1 (by rfl) 1 (by decide)).1⟩

theorem findChar_eq_none {c : Char} {cs : List Char} : std.findChar c cs = none ↔ c ∉ cs := by
  induction cs with
  | nil => simp [std.findChar]
  | cons x xs ih =>
    by_cases hx : x = c
    · simp [std.findChar, hx]
    · have hx2 : ¬ c = x := fun e => hx e.symm
      simp [std.findChar, hx, hx2, ih]

theorem sides_eq_none {eqn : String} (h : '=' ∉ eqn.data) : spec.sides eqn = none := by
  simp [spec.sides, std.find, findChar_eq_none.mpr h]

theorem sides_isSome {eqn : String} (h : '=' ∈ eqn.data) : ∃ p, spec.sides eqn = some p := by
  unfold spec.sides std.find
  cases hf : std.findChar '=' eqn.data with
  | none => exact absurd h (findChar_eq_none.mp hf)
  | some k => exact ⟨_, rfl⟩

theorem ofEqn_eq (d : Deps H) (eqn : String) : ofEqn d eqn = ofEqnVecComment d [eqn] "" := rfl

theorem ofEqnComment_eq (d : Deps H) (eqn Comment : String) :
    ofEqnComment d eqn Comment = ofEqnVecComment d [eqn] Comment := rfl

theorem ofEqnVec_eq (d : Deps H) (eqnVec : List String) :
    ofEqnVec d eqnVec = ofEqnVecComment d eqnVec "" := rfl

theorem parse_singleton_error {d : Deps H} {eqn : String} {e : Exception}
    (h : spec.parseEqn d eqn = .error e) : spec.parse d [eqn] = .error e := by
  simp [spec.parse, h]

theorem tokensTerms_first_error {d : Deps H} {pre post : List (Bool × String × String)}
    {x : Bool × String × String} {e : Exception}
    (hpre : ∀ y ∈ pre, ∃ t, spec.tokenTerm d y.1 y.2 = .ok t)
    (hx : spec.tokenTerm d x.1 x.2 = .error e) :
    spec.tokensTerms d (pre ++ x :: post) = .error e := by
  induction pre with
  | nil =>
    obtain ⟨dir, m⟩ := x
    simp only [List.nil_append, spec.tokensTerms]
    simp only at hx
    rw [hx]
  | cons y ys ih =>
    obtain ⟨dir, m⟩ := y
    obtain ⟨t, ht⟩ := hpre (dir, m) (List.mem_cons_self _ _)
    simp only at ht
    simp only [List.cons_append, spec.tokensTerms, ht, List.append_eq]
    rw [ih (fun z hz => hpre z (List.mem_cons_of_mem _ hz))]

theorem tokensTerms_error_of_mem (d : Deps H) (toks : List (Bool × String × String))
    (x : Bool × String × String) {e : Exception} (hmem : x ∈ toks)
    (hx : spec.tokenTerm d x.1 x.2 = .error e) : ∃ e1, spec.tokensTerms d toks = .error e1 := by
  induction toks with
  | nil => exact absurd hmem (List.not_mem_nil x)
  | cons y ys ih =>
    obtain ⟨dir, m⟩ := y
    simp only [spec.tokensTerms]
    cases ht : spec.tokenTerm d dir m with
    | error e1 => exact ⟨e1, rfl⟩
    | ok t =>
      rcases List.mem_cons.mp hmem with hxy | hxy
      · subst hxy
        simp only at hx
        rw [hx] at ht
        cases ht
      · obtain ⟨e1, he1⟩ := ih hxy
        exact ⟨e1, by simp [he1]⟩

theorem tokenTerm_stof_error {d : Deps H} (direction : Bool) {txt name : String} {e : Exception}
    (hne : txt ≠ "") (hstof : d.stof txt = .error e) :
    spec.tokenTerm d direction (txt, name) = .error e := by
  simp [spec.tokenTerm, spec.magnitude, hne, hstof]

/-- Claim C9: for every equation string that contains no `=` character, construction from
that single equation, with or without a comment, fails with the `std::runtime_error` of a
malformed equation, whatever the tokenizer, `std::stof` and the registry would return. -/
theorem C9_equation_without_separator_is_refused (d : Deps H) (eqn : String) (Comment : String)
    (h : '=' ∉ eqn.data) :
    ofEqn d eqn = .error (Exception.runtime_error "Invalid chemical reaction has entered.") ∧
      ofEqnComment d eqn Comment =
        .error (Exception.runtime_error "Invalid chemical reaction has entered.") := by
  have hp : spec.parse d [eqn] =
      .error (Exception.runtime_error "Invalid chemical reaction has entered.") :=
    parse_singleton_error (by simp [spec.parseEqn, sides_eq_none h])
  exact ⟨by rw [ofEqn_eq]; exact ofEqnVecComment_error "" hp,
    by rw [ofEqnComment_eq]; exact ofEqnVecComment_error Comment hp⟩

/-- Claim C9, witness: `"A + B"` holds no `=` and is refused with the runtime error. -/
theorem C9_witness :
    '=' ∉ "A + B".data ∧
      ofEqn model.deps "A + B" =
        .error (Exception.runtime_error "Invalid chemical reaction has entered.") :=
  ⟨by decide, (C9_equation_without_separator_is_refused model.deps "A + B" "" (by decide)).1⟩

/-- Claim C10, counterexample: the reactant side of `"2xA = B"` has the token `("2x", "A")`,
whose coefficient text is not empty and is not the text of a number, yet construction
succeeds: `std::stof` converts the prefix `2` and the cell of `A` is `-2`. -/
theorem C10_counterexample :
    spec.eqnTokens model.deps "2xA = B" = [(true, "2x", "A"), (false, "", "B")] ∧
      model.isNumberText "2x" = false ∧
      model.view (ofEqn model.deps "2xA = B") = some (["A", "B"], [[-2, 1], [-2, 1]]) := by
  decide!

/-- Claim C10, amended: for every equation that contains `=`, if the tokenizer yields for
either side a token whose coefficient text is not empty and from which `std::stof` can
convert nothing (`std::invalid_argument`), construction fails; when the tokens before it
(reactant side before product side) are all accepted, the error is that
`std::invalid_argument`, which differs from the `std::runtime_error` of a malformed
equation. -/
theorem C10_unconvertible_coefficient_is_refused (d : Deps H) (eqn : String) (Comment : String)
    (pre post : List (Bool × String × String)) (direction : Bool) (txt name : String)
    (heq : '=' ∈ eqn.data)
    (htoks : spec.eqnTokens d eqn = pre ++ (direction, txt, name) :: post)
    (hne : txt ≠ "") (hstof : d.stof txt = .error Exception.invalid_argument) :
    (∃ e, ofEqnComment d eqn Comment = .error e) ∧
      ((∀ y ∈ pre, ∃ t, spec.tokenTerm d y.1 y.2 = .ok t) →
        ofEqnComment d eqn Comment = .error Exception.invalid_argument) ∧
      ∀ what, Exception.invalid_argument ≠ Exception.runtime_error what := by
  obtain ⟨p, hp⟩ := sides_isSome heq
  have hx : spec.tokenTerm d direction (txt, name) = .error Exception.invalid_argument :=
    tokenTerm_stof_error direction hne hstof
  have hpe : spec.parseEqn d eqn = spec.tokensTerms d (spec.eqnTokens d eqn) := by
    simp [spec.parseEqn, hp]
  refine ⟨?_, ?_, fun what e => by cases e⟩
  · obtain ⟨e1, he1⟩ := tokensTerms_error_of_mem d (spec.eqnTokens d eqn)
      (direction, txt, name) (by rw [htoks]; simp) hx
    rw [← hpe] at he1
    refine ⟨e1, ?_⟩
    rw [ofEqnComment_eq]
    exact ofEqnVecComment_error Comment (parse_singleton_error he1)
  · intro hpre
    have he1 : spec.parseEqn d eqn = .error Exception.invalid_argument := by
      rw [hpe, htoks]
      exact tokensTerms_first_error hpre hx
    rw [ofEqnComment_eq]
    exact ofEqnVecComment_error Comment (parse_singleton_error he1)

/-- Claim C10, witness: in `"xA = B"` the first token has the coefficient text `x`, from which
nothing can be converted, and construction fails with `std::invalid_argument`. -/
theorem C10_witness :
    '=' ∈ "xA = B".data ∧
      spec.eqnTokens model.deps "xA = B" = [] ++ (true, "x", "A") :: [(false, "", "B")] ∧
      "x" ≠ "" ∧ model.stof "x" = .error Exception.invalid_argument ∧
      ofEqnComment model.deps "xA = B" "" = .error Exception.invalid_argument :=
  ⟨by decide, by decide, by decide, by rfl,
    (C10_unconvertible_coefficient_is_refused model.deps "xA = B" "" []
      [(false, "", "B")] true "x" "A" (by decide) (by decide) (by decide) (by rfl)).2.1
      (fun y hy => absurd hy (List.not_mem_nil y))⟩

theorem parse_singleton (d : Deps H) (eqn : String) :
    spec.parse d [eqn] = (spec.parseEqn d eqn).map (fun ts => [ts]) := by
  simp only [spec.parse]
  cases spec.parseEqn d eqn <;> rfl

theorem parseEqn_of_ofEqn_ok {d : Deps H} {eqn : String} {r : RxnBase H}
    (h : ofEqn d eqn = .ok r) : ∃ ts, spec.parseEqn d eqn = .ok ts := by
  rw [ofEqn_eq] at h
  have hp := (ofEqnVecComment_ok h).1
  rw [parse_singleton] at hp
  cases hq : spec.parseEqn d eqn with
  | error e => simp [hq, Except.map] at hp
  | ok ts => exact ⟨ts, rfl⟩

theorem parseEqn_of_ofEqn_error {d : Deps H} {eqn : String} {e : Exception}
    (h : ofEqn d eqn = .error e) : spec.parseEqn d eqn = .error e := by
  rw [ofEqn_eq, ofEqnVecComment, setMat_eq, parse_singleton] at h
  cases hq : spec.parseEqn d eqn with
  | error e1 =>
    simp only [hq, Except.map, Except.error.injEq] at h
    rw [h]
  | ok ts => simp [hq, Except.map] at h

theorem parse_first_error {d : Deps H} {pre : List String} {eqn : String} {e : Exception}
    (hpre : ∀ x ∈ pre, ∃ ts, spec.parseEqn d x = .ok ts)
    (hfail : spec.parseEqn d eqn = .error e) (post : List String) :
    spec.parse d (pre ++ eqn :: post) = .error e := by
  induction pre with
  | nil => simp [spec.parse, hfail]
  | cons x xs ih =>
    obtain ⟨ts, hts⟩ := hpre x (List.mem_cons_self _ _)
    simp only [List.cons_append, spec.parse, hts, List.append_eq]
    rw [ih (fun z hz => hpre z (List.mem_cons_of_mem _ hz))]

/-- Claim C11: when an equation of the list is refused (construction from it alone fails with
the error `e`) and every equation before it is accepted, construction from the list fails
with exactly `e`, whatever the equations after it are. -/
theorem C11_first_refused_equation_decides_the_error (d : Deps H) (pre : List String)
    (eqn : String) (Comment : String) (e : Exception)
    (hpre : ∀ x ∈ pre, ∃ r, ofEqn d x = .ok r) (hfail : ofEqn d eqn = .error e) :
    ∀ post : List String, ofEqnVecComment d (pre ++ eqn :: post) Comment = .error e := by
  intro post
  apply ofEqnVecComment_error
  refine parse_first_error (fun x hx => ?_) (parseEqn_of_ofEqn_error hfail) post
  obtain ⟨r, hr⟩ := hpre x hx
  exact parseEqn_of_ofEqn_ok hr

/-- Claim C11, witness: in `["A = B", "A + B", "xA = B"]` the first equation is accepted and
the second has no `=`; construction fails with the runtime error of the second, not with
the `std::invalid_argument` of the third. -/
theorem C11_witness :
    ofEqn model.deps "A = B" = .ok (model.built (ofEqn model.deps "A = B")) ∧
      ofEqn model.deps "A + B" =
        .error (Exception.runtime_error "Invalid chemical reaction has entered.") ∧
      ofEqn model.deps "xA = B" = .error Exception.invalid_argument ∧
      ofEqnVecComment model.deps (["A = B"] ++ "A + B" :: ["xA = B"]) "" =
        .error (Exception.runtime_error "Invalid chemical reaction has entered.") :=
  ⟨by rfl, by rfl, by rfl,
    C11_first_refused_equation_decides_the_error model.deps ["A = B"] "A + B" ""
      (Exception.runtime_error "Invalid chemical reaction has entered.")
      (fun x hx => by
        rw [List.mem_singleton] at hx
        subst hx
        exact ⟨_, by rfl⟩)
      (by rfl) ["xA = B"]⟩

theorem findChar_some {c : Char} {cs : List Char} {k : Nat} (h : std.findChar c cs = some k) :
    cs.take k = cs.takeWhile (fun x => x ≠ c) ∧ cs = cs.take k ++ c :: cs.drop (k + 1) := by
  induction cs generalizing k with
  | nil => simp [std.findChar] at h
  | cons x xs ih =>
    by_cases hx : x = c
    · simp only [std.findChar, hx, if_true, Option.some.injEq] at h
      subst h
      simp [hx]
    · simp only [std.findChar, hx, if_false, Option.map_eq_some'] at h
      obtain ⟨k1, hk1, e⟩ := h
      subst e
      obtain ⟨e1, e2⟩ := ih hk1
      refine ⟨by simp [List.takeWhile_cons, hx, e1], ?_⟩
      simp only [List.take_succ_cons, List.drop_succ_cons, List.cons_append]
      rw [← e2]

theorem not_mem_takeWhile_ne (c : Char) (cs : List Char) : c ∉ cs.takeWhile (fun x => x ≠ c) := by
  intro h
  have := List.mem_takeWhile_imp h
  simp at this

theorem prefix_takeWhile_ne {c : Char} {cs p : List Char} (hp : p <+: cs) (hc : c ∉ p) :
    p <+: cs.takeWhile (fun x => x ≠ c) := by
  induction cs generalizing p with
  | nil =>
    have : p = [] := List.prefix_nil.mp hp
    subst this
    simp
  | cons x xs ih =>
    cases p with
    | nil => exact List.nil_prefix
    | cons y ys =>
      obtain ⟨e, hys⟩ := List.cons_prefix_cons.mp hp
      subst e
      have hy : y ≠ c := fun e => hc (e ▸ List.mem_cons_self _ _)
      have hys2 : c ∉ ys := fun hmem => hc (List.mem_cons_of_mem _ hmem)
      simp only [List.takeWhile_cons, hy, ne_eq, not_false_eq_true, decide_True, if_true]
      exact List.cons_prefix_cons.mpr ⟨rfl, ih hys hys2⟩

theorem split_join (eqn : String) {k : Nat} (h : std.find eqn '=' = some k) :
    std.substr eqn 0 k ++ "=" ++ std.substrFrom eqn (k + 1) = eqn := by
  apply String.ext
  have h2 := (findChar_some h).2
  simp only [std.substr, std.substrFrom, String.data_append, List.drop_zero]
  rw [List.append_assoc]
  exact h2.symm

/-- Claim C12: for every equation string that contains exactly one `=` character, the split
of `_setMat` yields a reactant side and a product side such that reactant side, `"="` and
product side, concatenated, give the equation string unchanged, and neither side
contains `=`. -/
theorem C12_split_of_equation_with_one_separator (eqn : String)
    (hone : eqn.data.count '=' = 1) :
    ∃ strIdx, std.find eqn '=' = some strIdx ∧
      spec.sides eqn = some (std.substr eqn 0 strIdx, std.substrFrom eqn (strIdx + 1)) ∧
      std.substr eqn 0 strIdx ++ "=" ++ std.substrFrom eqn (strIdx + 1) = eqn ∧
      '=' ∉ (std.substr eqn 0 strIdx).data ∧
      '=' ∉ (std.substrFrom eqn (strIdx + 1)).data := by
  have hmem : '=' ∈ eqn.data := List.count_pos_iff.mp (by omega)
  cases hf : std.find eqn '=' with
  | none => exact absurd hmem (findChar_eq_none.mp hf)
  | some k =>
    obtain ⟨e1, e2⟩ := findChar_some hf
    have hreac : '=' ∉ eqn.data.take k := by
      rw [e1]
      exact not_mem_takeWhile_ne _ _
    refine ⟨k, rfl, by simp [spec.sides, hf], split_join eqn hf, ?_, ?_⟩
    · simpa [std.substr] using hreac
    · have hcount := congrArg (List.count '=') e2
      rw [List.count_append, List.count_cons_self, hone,
        List.count_eq_zero.mpr hreac] at hcount
      have : List.count '=' (eqn.data.drop (k + 1)) = 0 := by omega
      simpa [std.substrFrom] using List.count_eq_zero.mp this

/-- Claim C12, witness: `"A + 2B = 3C"` holds one `=` and is split into `"A + 2B "` and
`" 3C"`. -/
theorem C12_witness :
    "A + 2B = 3C".data.count '=' = 1 ∧
      ∃ strIdx, std.find "A + 2B = 3C" '=' = some strIdx ∧
        spec.sides "A + 2B = 3C" =
          some (std.substr "A + 2B = 3C" 0 strIdx, std.substrFrom "A + 2B = 3C" (strIdx + 1)) ∧
        std.substr "A + 2B = 3C" 0 strIdx ++ "=" ++ std.substrFrom "A + 2B = 3C" (strIdx + 1) =
          "A + 2B = 3C" ∧
        '=' ∉ (std.substr "A + 2B = 3C" 0 strIdx).data ∧
        '=' ∉ (std.substrFrom "A + 2B = 3C" (strIdx + 1)).data :=
  ⟨by decide, C12_split_of_equation_with_one_separator "A + 2B = 3C" (by decide)⟩

theorem parse_of_forall {d : Deps H} {eqnVec : List String}
    (h : ∀ eqn ∈ eqnVec, spec.parseEqn d eqn = .ok (spec.eqnTerms d eqn)) :
    spec.parse d eqnVec = .ok (eqnVec.map (spec.eqnTerms d)) := by
  induction eqnVec with
  | nil => rfl
  | cons x xs ih =>
    simp only [spec.parse, h x (List.mem_cons_self _ _),
      ih (fun z hz => h z (List.mem_cons_of_mem _ hz)), List.map_cons]

theorem handles_append (d : Deps H) (E F : List String) :
    spec.handles d (E ++ F) = spec.handles d E ++ spec.handles d F := by
  simp [spec.handles]

/-- Claim C13: when construction from `E ++ F` succeeds, construction from `E` succeeds too
and the species list built from `E` is a prefix of the species list built from `E ++ F`. -/
theorem C13_species_of_earlier_equations_are_a_prefix (d : Deps H) (E F : List String)
    (Comment : String) (r : RxnBase H) (h : ofEqnVecComment d (E ++ F) Comment = .ok r) :
    ∃ rE, ofEqnVecComment d E Comment = .ok rE ∧ rE.getChemIdx <+: r.getChemIdx := by
  have hall := (parse_ok (ofEqnVecComment_ok h).1).2
  have hE : spec.parse d E = .ok (E.map (spec.eqnTerms d)) :=
    parse_of_forall (fun eqn hmem => hall eqn (List.mem_append_left F hmem))
  obtain ⟨rE, hrE⟩ := ofEqnVecComment_of_parse Comment hE
  refine ⟨rE, hrE, ?_⟩
  rw [(built_fields hrE).2.1, (built_fields h).2.1, handles_append, ← registerAll_nil_left,
    ← registerAll_nil_left, registerAll_append]
  exact registerAll_prefix _ _

/-- Claim C13, witness: the species list `[A, B]` built from `["A = B"]` is a prefix of the
species list built from `["A = B", "B = C"]`. -/
theorem C13_witness :
    ofEqnVecComment model.deps (["A = B"] ++ ["B = C"]) "" = .ok model.rxn2 ∧
      ∃ rE, ofEqnVecComment model.deps ["A = B"] "" = .ok rE ∧
        rE.getChemIdx <+: model.rxn2.getChemIdx :=
  ⟨by rfl, C13_species_of_earlier_equations_are_a_prefix model.deps ["A = B"] ["B = C"] ""
    model.rxn2 (by rfl)⟩

/-- Claim C14: on an object whose construction succeeded, `getComment` returns exactly the
comment string passed to the constructor, and the empty string when a constructor without
a comment argument was used; so it does on a default-constructed object. -/
theorem C14_getComment_returns_the_comment (d : Deps H) (eqn : String) (eqnVec : List String)
    (Comment : String) (r : RxnBase H) :
    (ofEqn d eqn = .ok r → r.getComment = "") ∧
      (ofEqnComment d eqn Comment = .ok r → r.getComment = Comment) ∧
      (ofEqnVec d eqnVec = .ok r → r.getComment = "") ∧
      (ofEqnVecComment d eqnVec Comment = .ok r → r.getComment = Comment) ∧
      (mk0 : RxnBase H).getComment = "" := by
  refine ⟨fun h => ?_, fun h => ?_, fun h => ?_, fun h => ?_, rfl⟩
  · rw [ofEqn_eq] at h
    exact (built_fields h).1
  · rw [ofEqnComment_eq] at h
    exact (built_fields h).1
  · rw [ofEqnVec_eq] at h
    exact (built_fields h).1
  · exact (built_fields h).1

/-- Claim C14, witness: the object built from `["A = B", "B = C"]` with the comment
`"two steps"` returns `"two steps"`, and the one built from `"A + 2B = 3C"` without a
comment returns the empty string. -/
theorem C14_witness :
    ofEqnVecComment model.deps ["A = B", "B = C"] "two steps" = .ok model.rxn4 ∧
      model.rxn4.getComment = "two steps" ∧
      ofEqn model.deps "A + 2B = 3C" = .ok model.rxn1 ∧ model.rxn1.getComment = "" :=
  ⟨by rfl,
    (C14_getComment_returns_the_comment model.deps "" ["A = B", "B = C"] "two steps"
      model.rxn4).2.2.2.1 (by rfl),
    by rfl,
    (C14_getComment_returns_the_comment model.deps "A + 2B = 3C" [] "" model.rxn1).1 (by rfl)⟩

theorem parseEqns_ok {d : Deps H} {eqnVec : List String} {self : RxnBase H} {st : Locals H}
    (h : parseEqns d eqnVec self = .ok st) :
    spec.parse d eqnVec = .ok (eqnVec.map (spec.eqnTerms d)) ∧
      st = pushEqns { effiVec := [], chemVec := [], curEqnIdx := 0, self := self }
        (eqnVec.map (spec.eqnTerms d)) := by
  rw [parseEqns_eq] at h
  cases hp : spec.parse d eqnVec with
  | error e => simp [hp, Except.map] at h
  | ok tss =>
    have e1 := (parse_ok hp).1
    subst e1
    simp only [hp, Except.map, Except.ok.injEq] at h
    exact ⟨rfl, h.symm⟩

theorem mem_chemIdx_of_pushEqns (st0 : Locals H) (tss : List (List (ℚ × H))) :
    ∀ ts ∈ tss, ∀ t ∈ ts, t.2 ∈ (pushEqns st0 tss).self._ChemIdx := by
  intro ts hts t ht
  simp only [pushEqns, mem_registerAll]
  right
  exact List.mem_map.mpr ⟨t, List.mem_flatten.mpr ⟨ts, hts, ht⟩, rfl⟩

/-- Claim C15: when the first loop of `_setMat` succeeds (every equation is split and both of
its sides are parsed), every handle of every term list is in the final species list, so the
position looked up for it is smaller than the number of rows, and the rest of `_setMat`
sizes and fills the matrix without error: no index is out of bounds. -/
theorem C15_assembly_has_no_reachable_error (d : Deps H) (eqnVec : List String)
    (self : RxnBase H) (st : Locals H) (h : parseEqns d eqnVec self = .ok st) :
    (∀ hs ∈ st.chemVec, ∀ x ∈ hs, x ∈ st.self._ChemIdx) ∧
      (∀ hs ∈ st.chemVec, ∀ x ∈ hs,
        functions.getVecPos st.self._ChemIdx x < st.self._ChemIdx.length) ∧
      ∃ r, fillMat d st = .ok r ∧ _setMat d eqnVec self = .ok r ∧
        r.getEffiMat.rows = st.self._ChemIdx.length ∧ r.getChemIdx = st.self._ChemIdx := by
  obtain ⟨_, e⟩ := parseEqns_ok h
  have hmem : ∀ hs ∈ st.chemVec, ∀ x ∈ hs, x ∈ st.self._ChemIdx := by
    intro hs hhs x hx
    subst e
    simp only [pushEqns, List.nil_append, List.mem_map] at hhs
    obtain ⟨ts, hts, e2⟩ := hhs
    subst e2
    obtain ⟨t, ht, e3⟩ := List.mem_map.mp hx
    subst e3
    exact mem_chemIdx_of_pushEqns _ _ ts (List.mem_map.mpr hts) t ht
  refine ⟨hmem, fun hs hhs x hx => List.indexOf_lt_length.mpr (hmem hs hhs x hx), ?_⟩
  have hfill : fillMat d st =
      .ok { st.self with
            _EffiMat := finalMat d.sum st.self._ChemIdx (eqnVec.map (spec.eqnTerms d)) } := by
    subst e
    exact fillMat_eq d _ _ (by simp [pushEqns]) (by simp [pushEqns]) (by simp [pushEqns])
      (mem_chemIdx_of_pushEqns _ _)
  refine ⟨_, hfill, ?_, rfl, rfl⟩
  simp only [_setMat, h, bind, Except.bind]
  exact hfill

/-- Claim C15, witness: after the first loop over `["A = B", "B = C"]` the handle `C` of the
second term list is at position `2` of the species list `[A, B, C]`, below the `3` rows. -/
theorem C15_witness :
    parseEqns model.deps ["A = B", "B = C"] {} = .ok model.locals2 ∧
      model.locals2.chemVec = [["A", "B"], ["B", "C"]] ∧
      model.locals2.self._ChemIdx = ["A", "B", "C"] ∧
      functions.getVecPos model.locals2.self._ChemIdx "C" < model.locals2.self._ChemIdx.length ∧
      ∃ r, fillMat model.deps model.locals2 = .ok r ∧
        _setMat model.deps ["A = B", "B = C"] {} = .ok r ∧
        r.getEffiMat.rows = model.locals2.self._ChemIdx.length ∧
        r.getChemIdx = model.locals2.self._ChemIdx :=
  ⟨by rfl, by decide, by decide,
    (C15_assembly_has_no_reachable_error model.deps ["A = B", "B = C"] {} model.locals2
      (by rfl)).2.1 ["B", "C"] (by decide) "C" (by decide),
    (C15_assembly_has_no_reachable_error model.deps ["A = B", "B = C"] {} model.locals2
      (by rfl)).2.2⟩

/-- Claim C16: when construction succeeds, for every equation index `j` and every species row
`i` whose species occurs among the terms of equation `j`, the cell `(i, j)` holds the signed
coefficient of the last term of that species in the term list of equation `j` (reactant
terms, then product terms); for `"A + B = A + C"` the cell of `A` is `+1`. -/
theorem C16_cell_holds_coefficient_of_last_term (d : Deps H) (eqnVec : List String)
    (Comment : String) (r : RxnBase H) (h : ofEqnVecComment d eqnVec Comment = .ok r)
    (j : Nat) (hj : j < eqnVec.length) (i : Nat) (hi : i < r.getChemIdx.length)
    (hocc : r.getChemIdx[i] ∈ (spec.eqnTerms d eqnVec[j]).map Prod.snd) :
    (∃ t, ((spec.eqnTerms d eqnVec[j]).filter (fun t => t.2 = r.getChemIdx[i])).getLast? =
        some t ∧ r.getEffiMat.coeff i j = t.1) ∧
      model.view (ofEqn model.deps "A + B = A + C") =
        some (["A", "B", "C"], [[1, -1, 1], [1, -1, 1]]) := by
  refine ⟨?_, by decide!⟩
  rw [built_cell h i j hj, writeCol_eq_getLast (built_nodup h) hi]
  obtain ⟨t, ht, e⟩ := List.mem_map.mp hocc
  have hne : (spec.eqnTerms d eqnVec[j]).filter (fun t => t.2 = r.getChemIdx[i]) ≠ [] := by
    intro hnil
    have hmem : t ∈ (spec.eqnTerms d eqnVec[j]).filter (fun t => t.2 = r.getChemIdx[i]) :=
      List.mem_filter.mpr ⟨ht, by simpa using e⟩
    rw [hnil] at hmem
    exact absurd hmem (List.not_mem_nil t)
  cases hl : ((spec.eqnTerms d eqnVec[j]).filter (fun t => t.2 = r.getChemIdx[i])).getLast? with
  | none => exact absurd (List.getLast?_eq_none_iff.mp hl) hne
  | some u => exact ⟨u, rfl, rfl⟩

/-- Claim C16, witness: in `"A + B = A + C"` the terms of `A` are `(-1, A)` and `(1, A)`; the
cell of `A` holds the coefficient `1` of the last one. -/
theorem C16_witness :
    ofEqnVecComment model.deps ["A + B = A + C"] "" = .ok model.rxn5 ∧
      spec.eqnTerms model.deps "A + B = A + C" = [(-1, "A"), (-1, "B"), (1, "A"), (1, "C")] ∧
      ∃ t, ((spec.eqnTerms model.deps "A + B = A + C").filter (fun t => t.2 = "A")).getLast? =
        some t ∧ model.rxn5.getEffiMat.coeff 0 0 = t.1 :=
  ⟨by rfl, by decide!,
    (C16_cell_holds_coefficient_of_last_term model.deps ["A + B = A + C"] "" model.rxn5 (by rfl)
      0 (by decide) 0 (by decide) (by decide)).1⟩

theorem addColumn_shape (species : List H) (j : Nat) (ts : List (ℚ × H)) (M : MatrixXf) :
    (spec.addColumn species j ts M).rows = M.rows ∧
      (spec.addColumn species j ts M).cols = M.cols := by
  induction ts generalizing M with
  | nil => exact ⟨rfl, rfl⟩
  | cons t ts ih =>
    simp only [spec.addColumn, List.foldl_cons]
    exact ih (spec.addCell M (species.indexOf t.2) j t.1)

theorem addColumn_coeff (species : List H) (j : Nat) (ts : List (ℚ × H)) (M : MatrixXf)
    (a b : Nat) :
    (spec.addColumn species j ts M).coeff a b =
      if b = j then
        M.coeff a j + ((ts.filter (fun t => species.indexOf t.2 = a)).map Prod.fst).sum
      else M.coeff a b := by
  induction ts generalizing M with
  | nil => by_cases hb : b = j <;> simp [spec.addColumn, hb]
  | cons t ts ih =>
    have hstep : spec.addColumn species j (t :: ts) M =
        spec.addColumn species j ts (spec.addCell M (species.indexOf t.2) j t.1) := rfl
    rw [hstep, ih]
    by_cases hb : b = j
    · by_cases ha : species.indexOf t.2 = a
      · simp only [hb, if_true, spec.addCell, ha, and_self, List.filter_cons, decide_True,
          List.map_cons, List.sum_cons]
        ring
      · have ha2 : ¬ a = species.indexOf t.2 := fun e => ha e.symm
        simp [hb, spec.addCell, ha, ha2, List.filter_cons]
    · simp [hb, spec.addCell]

theorem foldl_addColumn_shape (species : List H) (tss : List (List (ℚ × H))) (M : MatrixXf)
    (m : Nat) :
    ((List.range m).foldl (fun M j => spec.addColumn species j (tss.getD j []) M) M).rows =
        M.rows ∧
      ((List.range m).foldl (fun M j => spec.addColumn species j (tss.getD j []) M) M).cols =
        M.cols := by
  induction m with
  | zero => exact ⟨rfl, rfl⟩
  | succ m ih =>
    rw [List.range_succ, List.foldl_append]
    simp only [List.foldl_cons, List.foldl_nil]
    exact ⟨(addColumn_shape _ _ _ _).1.trans ih.1, (addColumn_shape _ _ _ _).2.trans ih.2⟩

theorem foldl_addColumn_coeff (species : List H) (tss : List (List (ℚ × H))) (R C m : Nat)
    (a b : Nat) :
    ((List.range m).foldl (fun M j => spec.addColumn species j (tss.getD j []) M)
        (MatrixXf.zero R C)).coeff a b =
      if b < m then
        (((tss.getD b []).filter (fun t => species.indexOf t.2 = a)).map Prod.fst).sum
      else 0 := by
  induction m generalizing a b with
  | zero => simp [MatrixXf.zero]
  | succ m ih =>
    rw [List.range_succ, List.foldl_append]
    simp only [List.foldl_cons, List.foldl_nil, addColumn_coeff, ih]
    by_cases hb : b = m
    · subst hb
      simp only [if_true, Nat.lt_irrefl, if_false, Nat.lt_succ_self, zero_add]
    · have : b < m + 1 ↔ b < m := by omega
      simp only [hb, if_false, this]

theorem foldl_rowSums_shape (C : Nat) (M : MatrixXf) (n : Nat) :
    ((List.range n).foldl
        (fun M i =>
          { M with coeff := fun a b =>
              if a = i ∧ b = C then ((List.range C).map (M.coeff i)).sum else M.coeff a b })
        M).rows = M.rows ∧
      ((List.range n).foldl
        (fun M i =>
          { M with coeff := fun a b =>
              if a = i ∧ b = C then ((List.range C).map (M.coeff i)).sum else M.coeff a b })
        M).cols = M.cols := by
  induction n with
  | zero => exact ⟨rfl, rfl⟩
  | succ n ih =>
    rw [List.range_succ, List.foldl_append]
    exact ih

theorem foldl_rowSums_coeff (C : Nat) (M : MatrixXf) (n : Nat) (a b : Nat) :
    ((List.range n).foldl
        (fun M i =>
          { M with coeff := fun a b =>
              if a = i ∧ b = C then ((List.range C).map (M.coeff i)).sum else M.coeff a b })
        M).coeff a b =
      if b = C ∧ a < n then ((List.range C).map (M.coeff a)).sum else M.coeff a b := by
  induction n generalizing a b with
  | zero => simp
  | succ n ih =>
    rw [List.range_succ, List.foldl_append]
    simp only [List.foldl_cons, List.foldl_nil]
    by_cases hb : b = C
    · by_cases ha : a = n
      · subst ha
        subst hb
        simp only [and_self, if_true, Nat.lt_succ_self]
        congr 1
        apply List.map_congr_left
        intro c hc
        have hc2 : ¬ c = b := Nat.ne_of_lt (List.mem_range.mp hc)
        rw [ih]
        simp [hc2]
      · have : a < n + 1 ↔ a < n := by omega
        simp only [ha, hb, false_and, if_false, this]
        rw [ih]
        simp
    · simp only [hb, and_false, if_false, false_and]
      rw [ih]
      simp [hb]

theorem indexOf_filter_eq {species : List H} (hnd : species.Nodup) {a : Nat}
    (ha : a < species.length) (ts : List (ℚ × H)) :
    ((ts.filter (fun t => species.indexOf t.2 = a)).map Prod.fst).sum =
      spec.coeffSum ts species[a] := by
  unfold spec.coeffSum
  congr 2
  apply List.filter_congr
  intro t _
  have := getVecPos_eq_iff hnd ha t.2
  unfold functions.getVecPos at this
  simp [this]

theorem assemble_shape (species : List H) (tss : List (List (ℚ × H))) :
    (spec.assemble species tss).rows = species.length ∧
      (spec.assemble species tss).cols = tss.length + 1 := by
  unfold spec.assemble
  exact ⟨(foldl_rowSums_shape _ _ _).1.trans (foldl_addColumn_shape _ _ _ _).1,
    (foldl_rowSums_shape _ _ _).2.trans (foldl_addColumn_shape _ _ _ _).2⟩

theorem assemble_coeff_lt {species : List H} (hnd : species.Nodup)
    (tss : List (List (ℚ × H))) {a : Nat} (ha : a < species.length) {b : Nat}
    (hb : b < tss.length) :
    (spec.assemble species tss).coeff a b = spec.coeffSum tss[b] species[a] := by
  have hne : ¬ b = tss.length := Nat.ne_of_lt hb
  unfold spec.assemble
  simp only [foldl_rowSums_coeff, foldl_addColumn_coeff, hne, false_and, if_false, hb, if_true,
    indexOf_filter_eq hnd ha]
  simp only [List.getD_eq_getElem?_getD, List.getElem?_eq_getElem hb, Option.getD_some]

theorem assemble_coeff_last (species : List H) (tss : List (List (ℚ × H))) {a : Nat}
    (ha : a < species.length) :
    (spec.assemble species tss).coeff a tss.length =
      ((List.range tss.length).map (fun c => (spec.assemble species tss).coeff a c)).sum := by
  unfold spec.assemble
  simp only [foldl_rowSums_coeff, ha, and_self, if_true]
  congr 1
  apply List.map_congr_left
  intro c hc
  have hc2 : ¬ c = tss.length := Nat.ne_of_lt (List.mem_range.mp hc)
  simp [hc2]

theorem built_cell_sum {d : Deps H} {eqnVec : List String} {Comment : String} {r : RxnBase H}
    (h : ofEqnVecComment d eqnVec Comment = .ok r)
    (hnorep : ∀ eqn ∈ eqnVec, ((spec.eqnTerms d eqn).map Prod.snd).Nodup)
    (i : Nat) (hi : i < r.getChemIdx.length) (j : Nat) (hj : j < eqnVec.length) :
    r.getEffiMat.coeff i j = spec.coeffSum (spec.eqnTerms d eqnVec[j]) r.getChemIdx[i] := by
  rw [built_cell h i j hj]
  exact writeCol_eq_coeffSum (built_nodup h) hi _
    (List.nodup_iff_count_le_one.mp (hnorep _ (List.getElem_mem hj)) _)

/-- Claim C17: when construction succeeds and no species handle occurs more than once among
the terms of any single equation, every cell `(i, j)` of an equation column equals the sum of
the signed coefficients of the terms of equation `j` whose handle is the species of row `i`,
and the matrix the code builds by assignment has the shape and, in every cell of an equation
column, the value of the matrix the additive assembly of the specification builds from the
same species list and terms; so it has in the sum column when the sum of the row is taken
exactly. -/
theorem C17_assignment_agrees_with_additive_assembly (d : Deps H) (eqnVec : List String)
    (Comment : String) (r : RxnBase H) (h : ofEqnVecComment d eqnVec Comment = .ok r)
    (hnorep : ∀ eqn ∈ eqnVec, ((spec.eqnTerms d eqn).map Prod.snd).Nodup)
    (i : Nat) (hi : i < r.getChemIdx.length) :
    (∀ j (hj : j < eqnVec.length),
        r.getEffiMat.coeff i j = spec.coeffSum (spec.eqnTerms d eqnVec[j]) r.getChemIdx[i]) ∧
      (spec.assemble r.getChemIdx (eqnVec.map (spec.eqnTerms d))).rows = r.getEffiMat.rows ∧
      (spec.assemble r.getChemIdx (eqnVec.map (spec.eqnTerms d))).cols = r.getEffiMat.cols ∧
      ∀ j, j < r.getEffiMat.cols →
        (j = eqnVec.length →
          d.sum ((List.range eqnVec.length).map (fun c => r.getEffiMat.coeff i c) ++ [0]) =
            ((List.range eqnVec.length).map (fun c => r.getEffiMat.coeff i c)).sum) →
        r.getEffiMat.coeff i j =
          (spec.assemble r.getChemIdx (eqnVec.map (spec.eqnTerms d))).coeff i j := by
  have hlen : (eqnVec.map (spec.eqnTerms d)).length = eqnVec.length := List.length_map _ _
  have hcell : ∀ j (hj : j < eqnVec.length),
      r.getEffiMat.coeff i j =
        (spec.assemble r.getChemIdx (eqnVec.map (spec.eqnTerms d))).coeff i j := by
    intro j hj
    rw [built_cell_sum h hnorep i hi j hj,
      assemble_coeff_lt (built_nodup h) _ hi (by rw [hlen]; exact hj)]
    simp
  obtain ⟨_, e2, e3⟩ := built_fields h
  have hrows : r.getEffiMat.rows = r.getChemIdx.length := by rw [e3, e2, finalMat_rows]
  have hcols : r.getEffiMat.cols = eqnVec.length + 1 := by rw [e3, finalMat_cols, hlen]
  refine ⟨fun j hj => built_cell_sum h hnorep i hi j hj, ?_, ?_, ?_⟩
  · rw [hrows]
    exact (assemble_shape _ _).1
  · rw [hcols, ← hlen]
    exact (assemble_shape _ _).2
  · intro j hj hexact
    rw [hcols] at hj
    by_cases hj2 : j < eqnVec.length
    · exact hcell j hj2
    · have hj3 : j = eqnVec.length := by omega
      subst hj3
      have hlast : r.getEffiMat.coeff i eqnVec.length =
          ((List.range eqnVec.length).map (fun c => r.getEffiMat.coeff i c)).sum :=
        (built_last h i (by rw [hrows]; exact hi)).trans (hexact rfl)
      have hspec := assemble_coeff_last r.getChemIdx (eqnVec.map (spec.eqnTerms d)) hi
      rw [hlen] at hspec
      rw [hlast, hspec]
      congr 1
      apply List.map_congr_left
      intro c hc
      exact hcell c (List.mem_range.mp hc)

/-- Claim C17, witness: the equations `["A = B", "B = C"]` repeat no species; in the row of
`B` the cells the code assigns are those of the additive assembly, the one of the sum column
included, the sum of `1`, `-1` and `0` being exact. -/
theorem C17_witness :
    ofEqnVecComment model.deps ["A = B", "B = C"] "" = .ok model.rxn6 ∧
      (∀ eqn ∈ ["A = B", "B = C"], ((spec.eqnTerms model.deps eqn).map Prod.snd).Nodup) ∧
      model.rxn6.getEffiMat.coeff 1 1 =
        spec.coeffSum (spec.eqnTerms model.deps "B = C") "B" ∧
      model.rxn6.getEffiMat.coeff 1 2 =
        (spec.assemble model.rxn6.getChemIdx
          (["A = B", "B = C"].map (spec.eqnTerms model.deps))).coeff 1 2 :=
  ⟨by rfl, by decide,
    (C17_assignment_agrees_with_additive_assembly model.deps ["A = B", "B = C"] "" model.rxn6
      (by rfl) (by decide) 1 (by decide)).1 1 (by decide),
    (C17_assignment_agrees_with_additive_assembly model.deps ["A = B", "B = C"] "" model.rxn6
      (by rfl) (by decide) 1 (by decide)).2.2.2 2 (by decide) (fun _ => by decide!)⟩

/-- Claim C18: for every equation string that contains at least one `=` character, `find`
returns the position of the first `=`, so the equation is not refused by the split; the
reactant side is the longest prefix of the equation without `=`, the product side is
everything after that first `=`, later `=` characters included, and reactant side, `"="`
and product side, concatenated, give the equation; `"A = B = C"` is split into `"A "` and
`" B = C"`. -/
theorem C18_split_at_first_separator (eqn : String) (h : '=' ∈ eqn.data) :
    (∃ strIdx, std.find eqn '=' = some strIdx ∧
      spec.sides eqn = some (std.substr eqn 0 strIdx, std.substrFrom eqn (strIdx + 1)) ∧
      strIdx = (eqn.data.takeWhile (fun c => c ≠ '=')).length ∧
      (std.substr eqn 0 strIdx).data = eqn.data.takeWhile (fun c => c ≠ '=') ∧
      '=' ∉ (std.substr eqn 0 strIdx).data ∧
      (∀ p : List Char, p <+: eqn.data → '=' ∉ p → p <+: (std.substr eqn 0 strIdx).data) ∧
      (std.substrFrom eqn (strIdx + 1)).data = eqn.data.drop (strIdx + 1) ∧
      std.substr eqn 0 strIdx ++ "=" ++ std.substrFrom eqn (strIdx + 1) = eqn) ∧
      spec.sides "A = B = C" = some ("A ", " B = C") := by
  refine ⟨?_, by decide⟩
  cases hf : std.find eqn '=' with
  | none => exact absurd h (findChar_eq_none.mp hf)
  | some k =>
    obtain ⟨e1, e2⟩ := findChar_some hf
    have hdata : (std.substr eqn 0 k).data = eqn.data.takeWhile (fun c => c ≠ '=') := by
      simp [std.substr, e1]
    have hk : k = (eqn.data.takeWhile (fun c => c ≠ '=')).length := by
      have hlen := congrArg List.length e2
      rw [← e1, List.length_take]
      simp only [List.length_append, List.length_take, List.length_cons] at hlen
      omega
    refine ⟨k, rfl, by simp [spec.sides, hf], hk, hdata, ?_, ?_, rfl, split_join eqn hf⟩
    · rw [hdata]
      exact not_mem_takeWhile_ne _ _
    · intro p hp hc
      rw [hdata]
      exact prefix_takeWhile_ne hp hc

/-- Claim C18, witness: `"A = B = C"` holds two `=` and is split at the first one. -/
theorem C18_witness :
    '=' ∈ "A = B = C".data ∧ std.find "A = B = C" '=' = some 2 ∧
      std.substr "A = B = C" 0 2 = "A " ∧ std.substrFrom "A = B = C" (2 + 1) = " B = C" ∧
      ∃ strIdx, std.find "A = B = C" '=' = some strIdx ∧
        spec.sides "A = B = C" =
          some (std.substr "A = B = C" 0 strIdx, std.substrFrom "A = B = C" (strIdx + 1)) ∧
        strIdx = ("A = B = C".data.takeWhile (fun c => c ≠ '=')).length ∧
        (std.substr "A = B = C" 0 strIdx).data = "A = B = C".data.takeWhile (fun c => c ≠ '=') ∧
        '=' ∉ (std.substr "A = B = C" 0 strIdx).data ∧
        (∀ p : List Char, p <+: "A = B = C".data → '=' ∉ p →
          p <+: (std.substr "A = B = C" 0 strIdx).data) ∧
        (std.substrFrom "A = B = C" (strIdx + 1)).data = "A = B = C".data.drop (strIdx + 1) ∧
        std.substr "A = B = C" 0 strIdx ++ "=" ++ std.substrFrom "A = B = C" (strIdx + 1) =
          "A = B = C" :=
  ⟨by decide, by decide, by decide, by decide,
    (C18_split_at_first_separator "A = B = C" (by decide)).1⟩

/-- Claim C19: a successful `_parseTerm` call keeps what the two output lists held and appends
to each exactly one entry per token, in token order: at position `k` after the old entries
stand the coefficient and the handle of the term of token `k`.  Hence, after the first loop
of `_setMat`, the coefficient list and the handle list of every equation are the two
projections of one list of terms, the terms of the tokens of its reactant side followed by
those of its product side: they have equal length and agree position by position. -/
theorem C19_coefficients_and_handles_are_aligned (d : Deps H) (term : String)
    (direction : Bool) (st st' : TermOut H) (h : _parseTerm d term direction st = .ok st') :
    (st'.effiVec.length = st.effiVec.length + (d.regexIter term).length ∧
      st'.chemVec.length = st.chemVec.length + (d.regexIter term).length ∧
      st.effiVec <+: st'.effiVec ∧ st.chemVec <+: st'.chemVec ∧
      ∀ k (hk : k < (d.regexIter term).length),
        ∃ t, spec.tokenTerm d direction (d.regexIter term)[k] = .ok t ∧
          st'.effiVec[st.effiVec.length + k]? = some t.1 ∧
          st'.chemVec[st.chemVec.length + k]? = some t.2) ∧
      ∀ (eqnVec : List String) (self : RxnBase H) (loc : Locals H),
        parseEqns d eqnVec self = .ok loc →
          loc.effiVec.length = eqnVec.length ∧ loc.chemVec.length = eqnVec.length ∧
          ∀ j (hj : j < eqnVec.length),
            ∃ ts, loc.effiVec[j]? = some (ts.map Prod.fst) ∧
              loc.chemVec[j]? = some (ts.map Prod.snd) ∧
              List.Forall₂ (fun x t => spec.tokenTerm d x.1 x.2 = .ok t)
                (spec.eqnTokens d eqnVec[j]) ts := by
  constructor
  · obtain ⟨ts, hf, e⟩ := parseTerm_ok h
    subst e
    have hlen := hf.length_eq
    refine ⟨by simp [pushTerms, hlen], by simp [pushTerms, hlen], List.prefix_append _ _,
      List.prefix_append _ _, ?_⟩
    intro k hk
    have hk2 : k < ts.length := hlen ▸ hk
    have hR := (List.forall₂_iff_get.mp hf).2 k hk hk2
    refine ⟨ts.get ⟨k, hk2⟩, hR, ?_, ?_⟩
    · simp only [pushTerms, List.getElem?_append_right (Nat.le_add_right _ _),
        Nat.add_sub_cancel_left, List.getElem?_map, List.getElem?_eq_getElem hk2,
        Option.map_some']
      rfl
    · simp only [pushTerms, List.getElem?_append_right (Nat.le_add_right _ _),
        Nat.add_sub_cancel_left, List.getElem?_map, List.getElem?_eq_getElem hk2,
        Option.map_some']
      rfl
  · intro eqnVec self loc hloc
    obtain ⟨hp, e⟩ := parseEqns_ok hloc
    subst e
    refine ⟨by simp [pushEqns], by simp [pushEqns], ?_⟩
    intro j hj
    refine ⟨spec.eqnTerms d eqnVec[j], by simp [pushEqns, hj], by simp [pushEqns, hj], ?_⟩
    exact (parseEqn_ok ((parse_ok hp).2 _ (List.getElem_mem hj))).2

/-- Claim C19, witness: the reactant side `"A + 2B "` has two tokens; from empty lists
`_parseTerm` leaves the coefficients `[-1, -2]` and the handles `[A, B]`. -/
theorem C19_witness :
    _parseTerm model.deps "A + 2B " true { effiVec := [], chemVec := [], self := {} } =
        .ok model.side1 ∧
      model.regexIter "A + 2B " = [("", "A"), ("2", "B")] ∧
      model.side1.chemVec = ["A", "B"] ∧
      model.side1.effiVec.length = 0 + 2 ∧ model.side1.chemVec.length = 0 + 2 :=
  ⟨by rfl, by decide, by decide,
    (C19_coefficients_and_handles_are_aligned model.deps "A + 2B " true
      { effiVec := [], chemVec := [], self := {} } model.side1 (by rfl)).1.1,
    (C19_coefficients_and_handles_are_aligned model.deps "A + 2B " true
      { effiVec := [], chemVec := [], self := {} } model.side1 (by rfl)).1.2.1⟩

end theorems

end chemprochelper
